import Mathlib

/-!
# Verification of the documentation-scraper crawl engine

This file is a shallow embedding, in Lean 4, of the crawl-and-scrape engine
of `scraper.py` (function `crawl_and_scrape` and its helper `get_page_text`),
together with the parts of CPython 3.11's `urllib.parse` standard library
(`urlparse` / `urlunparse` / `urljoin`) that the engine calls, and of the
`ipaddress` validation that `urlsplit` performs on bracketed hosts.

Python strings are modelled as `List Char` (named `Str` below).  Python
exceptions that escape the engine (`ValueError` raised by `urlparse` on bad
bracketed netlocs) are modelled with `Except`; `requests.RequestException`
during the discovery fetch is part of the fetch oracle and is caught by the
engine exactly where the source catches it.

Modelling notes (each noted where it applies):
* network traffic is an oracle `Str → Fetch`: a fetch either raises
  (`Fetch.exc`, modelling `requests.RequestException`) or yields a response
  with an HTTP status, the list of `<a href>` values BeautifulSoup would
  find, a Content-Type header, and the texts the two extraction paths of
  `get_page_text` would produce;
* `_checknetloc` (the NFKC check for exotic non-ASCII netlocs) is modelled
  as a no-op; it is the identity for ASCII netlocs, which is exact for all
  inputs considered here;
* Streamlit UI calls (`st.empty`, `st.warning`, progress counters) and the
  `@st.cache_data` / `@st.cache_resource` memoization are side-effect-free
  with respect to the crawl state and are not modelled;
* the `ThreadPoolExecutor` extraction phase appends results in completion
  order, which is nondeterministic; the model processes the visited list in
  insertion order, and every extraction-phase claim proved here is
  insensitive to that order (each URL is processed exactly once either way).
-/

set_option maxRecDepth 10000

namespace Scraper

/-- Decidable equality for `Except`, used to evaluate concrete runs. -/
instance {ε α : Type} [DecidableEq ε] [DecidableEq α] : DecidableEq (Except ε α) :=
  fun a b =>
    match a, b with
    | .error e, .error f => decidable_of_iff (e = f) (by simp)
    | .ok x, .ok y => decidable_of_iff (x = y) (by simp)
    | .error _, .ok _ => isFalse (by simp)
    | .ok _, .error _ => isFalse (by simp)

/-- Python strings, modelled as lists of characters. -/
abbrev Str : Type := List Char

/-- Coerce a Lean string literal to the `Str` model. -/
def lit (s : String) : Str := s.data

/-! ## Basic string operations mirroring Python's `str` methods -/

/-- First occurrence split: `breakAtChar c s = some (a, b)` when
`s = a ++ c :: b` and `c ∉ a`; `none` when `c ∉ s`.  This is Python's
`s.split(c, 1)` combined with the `c in s` test. -/
def breakAtChar (c : Char) : Str → Option (Str × Str)
  | [] => none
  | x :: xs =>
    if x = c then some ([], xs)
    else (breakAtChar c xs).map (fun p => (x :: p.1, p.2))

/-- Split at the last occurrence of `c`: `some (a, b)` with `s = a ++ c :: b`
and `c ∉ b`; `none` when `c ∉ s`.  Used to model `s.rfind(c)`. -/
def splitAtLastChar (c : Char) (s : Str) : Option (Str × Str) :=
  match breakAtChar c s.reverse with
  | some (ra, rb) => some (rb.reverse, ra.reverse)
  | none => none

/-- Python `s.split(c)` (split on every occurrence, keeping empty pieces). -/
def splitOnChar (c : Char) : Str → List Str
  | [] => [[]]
  | x :: xs =>
    let r := splitOnChar c xs
    if x = c then [] :: r
    else
      match r with
      | [] => [[x]]
      | h :: t => (x :: h) :: t

/-- Python `sep.join(parts)` for a single-character separator. -/
def strJoin (sep : Char) : List Str → Str
  | [] => []
  | [p] => p
  | p :: ps => p ++ sep :: strJoin sep ps

/-- Python `sub in s` (substring containment). -/
def strContains (needle : Str) : Str → Bool
  | [] => needle.isPrefixOf []
  | x :: xs => needle.isPrefixOf (x :: xs) || strContains needle xs

/-- Python `s.lower()` (exact on ASCII; all lowered strings here are
pre-checked to consist of ASCII scheme characters). -/
def strLower (s : Str) : Str := s.map Char.toLower

/-- Python `s.rstrip("/")`. -/
def rstripSlashes (s : Str) : Str := (s.reverse.dropWhile (fun c => c = '/')).reverse

/-- Membership of a codepoint in `_WHATWG_C0_CONTROL_OR_SPACE`
(codepoints `0x00`–`0x20`). -/
def isC0OrSpace (c : Char) : Bool := c.toNat ≤ 32

/-- `url.lstrip(_WHATWG_C0_CONTROL_OR_SPACE)`. -/
def lstripC0 (s : Str) : Str := s.dropWhile isC0OrSpace

/-- `scheme.strip(_WHATWG_C0_CONTROL_OR_SPACE)` (both ends). -/
def stripC0 (s : Str) : Str := ((s.dropWhile isC0OrSpace).reverse.dropWhile isC0OrSpace).reverse

/-- Removal of `_UNSAFE_URL_BYTES_TO_REMOVE = ['\t', '\r', '\n']`,
performed by `urlsplit` on its `url` and `scheme` arguments. -/
def removeUnsafe (s : Str) : Str :=
  s.filter (fun c => ¬ (c = '\t' ∨ c = '\r' ∨ c = '\n'))

/-- Membership in `urllib.parse.scheme_chars`
(ASCII letters, digits, `'+'`, `'-'`, `'.'`). -/
def isSchemeChar (c : Char) : Bool :=
  c.isAlpha || c.isDigit || c = '+' || c = '-' || c = '.'

/-- Python `c.isascii()`. -/
def charIsAscii (c : Char) : Bool := c.toNat < 128

/-! ## The `ipaddress` validation reached through `_check_bracketed_host`

`urlsplit` raises `ValueError` for a netloc containing `'['` and `']'`
unless the bracketed host is a valid IPvFuture literal or parses with
`ipaddress.ip_address` as an IPv6 (not IPv4) address.  The functions below
mirror CPython 3.11's `ipaddress._BaseV4._parse_octet`,
`_BaseV4._ip_int_from_string`, `_BaseV6._parse_hextet`,
`_BaseV6._ip_int_from_string`, `IPv6Address._split_scope_id` and
`urllib.parse._check_bracketed_host`. -/

/-- Decimal value of a digit string (only applied to all-digit strings). -/
def decVal (s : Str) : Nat := s.foldl (fun a c => 10 * a + (c.toNat - 48)) 0

/-- `_BaseV4._parse_octet` succeeds: nonempty, ASCII digits only, at most
3 characters, no leading zero (except `"0"` itself), value at most 255. -/
def octetOK (s : Str) : Bool :=
  ¬ s.isEmpty && s.all Char.isDigit && s.length ≤ 3 &&
    (s = ['0'] || s.head? ≠ some '0') && decVal s ≤ 255

/-- `IPv4Address(addr_str)` succeeds on a string: no `'/'`, and
`_ip_int_from_string` accepts (exactly 4 octets, each valid). -/
def ipv4StrOK (s : Str) : Bool :=
  ¬ strContains ['/'] s && ¬ s.isEmpty &&
    (let octets := splitOnChar '.' s
     octets.length = 4 && octets.all octetOK)

/-- `_BaseV6._parse_hextet` succeeds: hex digits only, at most 4 of them,
and nonempty (`int('', 16)` raises). -/
def hextetOK (s : Str) : Bool :=
  ¬ s.isEmpty && s.length ≤ 4 && s.all (fun c => c.isDigit || ('a' ≤ c && c ≤ 'f') || ('A' ≤ c && c ≤ 'F'))

/-- `_BaseV6._ip_int_from_string` succeeds on the (scope-free) address. -/
def v6AddrOK (addr : Str) : Bool :=
  ¬ addr.isEmpty &&
  (let parts0 := splitOnChar ':' addr
   3 ≤ parts0.length &&
   -- IPv4-style suffix is converted to two hextets before further checks
   (let lastHasDot := match parts0.getLast? with
      | some l => strContains ['.'] l
      | none => false
    let v4ok := match parts0.getLast? with
      | some l => ipv4StrOK l
      | none => false
    let parts := if lastHasDot then parts0.dropLast ++ [['0'], ['0']] else parts0
    (!lastHasDot || v4ok) &&
    parts.length ≤ 9 &&
    (let n := parts.length
     let interiorEmpty := (List.range n).filter
       (fun i => decide (1 ≤ i) && decide (i + 1 < n) && (parts.getD i [' ']).isEmpty)
     match interiorEmpty with
     | [] =>
       n == 8 && !(parts.getD 0 [' ']).isEmpty && !(parts.getD (n - 1) [' ']).isEmpty &&
         parts.all hextetOK
     | [i] =>
       let headEmpty := (parts.getD 0 [' ']).isEmpty
       let lastEmpty := (parts.getD (n - 1) [' ']).isEmpty
       (!headEmpty || i == 1) &&
       (!lastEmpty || i == n - 2) &&
       (let partsHi := if headEmpty then i - 1 else i
        let partsLo := if lastEmpty then n - i - 2 else n - i - 1
        partsHi + partsLo ≤ 7 &&
        ((parts.take partsHi).all hextetOK &&
         (parts.drop (n - partsLo)).all hextetOK))
     | _ => false)))

/-- `IPv6Address(addr_str)` succeeds on a string: no `'/'`, optional
`%scope_id` (nonempty, without a further `'%'`), valid address part. -/
def ipv6StrOK (s : Str) : Bool :=
  ¬ strContains ['/'] s &&
    (match breakAtChar '%' s with
     | none => v6AddrOK s
     | some (addr, scope) => ¬ scope.isEmpty && ¬ strContains ['%'] scope && v6AddrOK addr)

/-- `_check_bracketed_host` succeeds: an IPvFuture literal
(`v`, one or more hex digits, `'.'`, at least one further character — the
regex `\Av[a-fA-F0-9]+\..+\Z`), or otherwise a string `ip_address` parses
as IPv6 (IPv4 addresses in brackets raise). -/
def bracketedHostOK (h : Str) : Bool :=
  if h.head? = some 'v' then
    let r := h.tail
    let hx := r.takeWhile (fun c => c.isDigit || ('a' ≤ c && c ≤ 'f') || ('A' ≤ c && c ≤ 'F'))
    ¬ hx.isEmpty && (r.drop hx.length).head? = some '.' && ¬ (r.drop (hx.length + 1)).isEmpty
  else
    ¬ ipv4StrOK h && ipv6StrOK h

/-! ## `urllib.parse` (CPython 3.11) -/

/-- The result of `urlsplit`. -/
structure SplitResult where
  scheme : Str
  netloc : Str
  path : Str
  query : Str
  fragment : Str
deriving DecidableEq, Repr

/-- The result of `urlparse` (a `SplitResult` plus `params`). -/
structure ParseResult where
  scheme : Str
  netloc : Str
  path : Str
  params : Str
  query : Str
  fragment : Str
deriving DecidableEq, Repr

/-- `urllib.parse.uses_relative` (3.11.6). -/
def uses_relative : List Str :=
  [lit "", lit "ftp", lit "http", lit "gopher", lit "nntp", lit "imap",
   lit "wais", lit "file", lit "https", lit "shttp", lit "mms",
   lit "prospero", lit "rtsp", lit "rtsps", lit "rtspu", lit "sftp",
   lit "svn", lit "svn+ssh", lit "ws", lit "wss"]

/-- `urllib.parse.uses_netloc` (3.11.6). -/
def uses_netloc : List Str :=
  [lit "", lit "ftp", lit "http", lit "gopher", lit "nntp", lit "telnet",
   lit "imap", lit "wais", lit "file", lit "mms", lit "https", lit "shttp",
   lit "snews", lit "prospero", lit "rtsp", lit "rtsps", lit "rtspu",
   lit "rsync", lit "svn", lit "svn+ssh", lit "sftp", lit "nfs", lit "git",
   lit "git+ssh", lit "ws", lit "wss"]

/-- `_splitnetloc(url, 2)` applied to `url.drop 2`: the netloc runs up to
the first of `'/'`, `'?'`, `'#'`. -/
def splitNetloc (s : Str) : Str × Str :=
  let nl := s.takeWhile (fun c => ¬ (c = '/' ∨ c = '?' ∨ c = '#'))
  (nl, s.drop nl.length)

/-- The scheme-extraction step of `urlsplit`: split at the first `':'` when
everything before it is a valid scheme (nonempty, leading ASCII letter, all
scheme characters); the extracted scheme is lowercased.  Returns
`(scheme, rest)`, falling back to the supplied default scheme. -/
def splitScheme (url : Str) (dscheme : Str) : Str × Str :=
  match breakAtChar ':' url with
  | some (before, after) =>
    if ¬ before.isEmpty && charIsAscii (before.headD ' ') && (before.headD ' ').isAlpha
        && before.all isSchemeChar then
      (strLower before, after)
    else (dscheme, url)
  | none => (dscheme, url)

/-- The netloc stage of `urlsplit`: a netloc is parsed only after `"//"`. -/
def netlocStage (rest0 : Str) : Str × Str :=
  if rest0.take 2 = ['/', '/'] then splitNetloc (rest0.drop 2) else ([], rest0)

/-- The fragment split of `urlsplit` (`if '#' in url: url.split('#', 1)`). -/
def fragStage (rest1 : Str) : Str × Str :=
  match breakAtChar '#' rest1 with
  | some ab => ab
  | none => (rest1, [])

/-- The query split of `urlsplit` (`if '?' in url: url.split('?', 1)`). -/
def queryStage (rest2 : Str) : Str × Str :=
  match breakAtChar '?' rest2 with
  | some ab => ab
  | none => (rest2, [])

/-- The content between the first `'['` of the netloc and the following
`']'` (`netloc.partition('[')[2].partition(']')[0]`). -/
def bracketedHost (netloc : Str) : Str :=
  (((breakAtChar '[' netloc).map Prod.snd).getD []).takeWhile (fun c => c ≠ ']')

/-- CPython 3.11 `urlsplit(url, scheme, allow_fragments=True)`.
`_checknetloc` is modelled as a no-op (exact for ASCII netlocs). -/
def urlsplit (url0 : Str) (dscheme0 : Str) : Except Str SplitResult :=
  let url1 := removeUnsafe (lstripC0 url0)
  let ds := removeUnsafe (stripC0 dscheme0)
  let s1 := splitScheme url1 ds
  let n1 := netlocStage s1.2
  let netloc := n1.1
  if (strContains ['['] netloc ∧ ¬ strContains [']'] netloc) ∨
     (strContains [']'] netloc ∧ ¬ strContains ['['] netloc) then
    .error (lit "Invalid IPv6 URL")
  else if strContains ['['] netloc ∧ strContains [']'] netloc ∧
      ¬ bracketedHostOK (bracketedHost netloc) then
    .error (lit "bracketed host check failed")
  else
    let f1 := fragStage n1.2
    let q1 := queryStage f1.1
    .ok ⟨s1.1, netloc, q1.1, q1.2, f1.2⟩

/-- `_splitparams` (only called when `';' in path`): find the first `';'`
after the last `'/'` (or the first `';'` overall when there is no `'/'`)
and split there; when no such `';'` exists the params are empty. -/
def splitparams (s : Str) : Str × Str :=
  match splitAtLastChar '/' s with
  | some (before, after) =>
    match breakAtChar ';' after with
    | some (a1, a2) => (before ++ '/' :: a1, a2)
    | none => (s, [])
  | none =>
    match breakAtChar ';' s with
    | some (a1, a2) => (a1, a2)
    | none => (s, [])

/-- `urllib.parse.uses_params` (3.11.6). -/
def uses_params : List Str :=
  [lit "", lit "ftp", lit "hdl", lit "prospero", lit "http", lit "imap",
   lit "https", lit "shttp", lit "rtsp", lit "rtsps", lit "rtspu",
   lit "sip", lit "sips", lit "mms", lit "sftp", lit "tel"]

/-- CPython 3.11 `urlparse(url, scheme, allow_fragments=True)`: the params
split only happens for schemes in `uses_params`. -/
def urlparse (url : Str) (dscheme : Str) : Except Str ParseResult := do
  let sr ← urlsplit url dscheme
  let (path, params) :=
    if sr.scheme ∈ uses_params ∧ strContains [';'] sr.path then splitparams sr.path
    else (sr.path, [])
  pure ⟨sr.scheme, sr.netloc, path, params, sr.query, sr.fragment⟩

/-- CPython 3.11 `urlunsplit`. -/
def urlunsplit (scheme netloc url query fragment : Str) : Str :=
  let url1 :=
    if ¬ netloc.isEmpty ∨
       (¬ scheme.isEmpty ∧ scheme ∈ uses_netloc ∧ url.take 2 ≠ ['/', '/']) then
      let u2 := if ¬ url.isEmpty ∧ url.take 1 ≠ ['/'] then '/' :: url else url
      ('/' :: '/' :: netloc) ++ u2
    else url
  let url2 := if ¬ scheme.isEmpty then scheme ++ ':' :: url1 else url1
  let url3 := if ¬ query.isEmpty then url2 ++ '?' :: query else url2
  if ¬ fragment.isEmpty then url3 ++ '#' :: fragment else url3

/-- CPython 3.11 `urlunparse`. -/
def urlunparse (pr : ParseResult) : Str :=
  let u := if ¬ pr.params.isEmpty then pr.path ++ ';' :: pr.params else pr.path
  urlunsplit pr.scheme pr.netloc u pr.query pr.fragment

/-- Interior filter of `urljoin`'s segment list:
`segments[1:-1] = filter(None, segments[1:-1])`. -/
def filterInteriorAux : List Str → List Str
  | [] => []
  | [y] => [y]
  | y :: ys => if y.isEmpty then filterInteriorAux ys else y :: filterInteriorAux ys

/-- Keep the first and last elements, drop empty interior elements. -/
def filterInterior : List Str → List Str
  | [] => []
  | [x] => [x]
  | x :: xs => x :: filterInteriorAux xs

/-- The `..`/`.` resolution loop of `urljoin` (unlike `normalize_url`'s
loop it keeps empty segments). -/
def joinStep (acc : List Str) (seg : Str) : List Str :=
  if seg = ['.', '.'] then acc.dropLast
  else if seg = ['.'] then acc
  else acc ++ [seg]

/-- CPython 3.11 `urljoin(base, url)`. -/
def urljoin (base url : Str) : Except Str Str :=
  if base.isEmpty then .ok url
  else if url.isEmpty then .ok base
  else do
    let b ← urlparse base []
    let r ← urlparse url b.scheme
    if r.scheme ≠ b.scheme ∨ r.scheme ∉ uses_relative then
      pure url
    else if r.scheme ∈ uses_netloc ∧ ¬ r.netloc.isEmpty then
      pure (urlunparse r)
    else
      let netloc := if r.scheme ∈ uses_netloc then b.netloc else r.netloc
      if r.path.isEmpty ∧ r.params.isEmpty then
        let query := if r.query.isEmpty then b.query else r.query
        pure (urlunparse ⟨r.scheme, netloc, b.path, b.params, query, r.fragment⟩)
      else
        let baseParts0 := splitOnChar '/' b.path
        let baseParts :=
          if baseParts0.getLast? ≠ some [] then baseParts0.dropLast else baseParts0
        let segments :=
          if r.path.take 1 = ['/'] then splitOnChar '/' r.path
          else filterInterior (baseParts ++ splitOnChar '/' r.path)
        let resolved0 := segments.foldl joinStep []
        let resolved :=
          if segments.getLast? = some ['.'] ∨ segments.getLast? = some ['.', '.'] then
            resolved0 ++ [[]]
          else resolved0
        let joined := strJoin '/' resolved
        let path := if joined.isEmpty then ['/'] else joined
        pure (urlunparse ⟨r.scheme, netloc, path, r.params, r.query, r.fragment⟩)

/-! ## `scraper.py`: URL normalization (`normalize_url`, lines 45–67) -/

/-- One iteration of `normalize_url`'s segment loop: drop `""` and `"."`,
pop on `".."` (popping an empty stack is a no-op), keep anything else. -/
def collapseStep (acc : List Str) (seg : Str) : List Str :=
  if seg = ['.'] ∨ seg = [] then acc
  else if seg = ['.', '.'] then acc.dropLast
  else acc ++ [seg]

/-- `normalize_url` (lines 45–67): parse, collapse the path segments,
reassemble with an explicitly cleared fragment. -/
def normalize_url (url : Str) : Except Str Str := do
  let parsed ← urlparse url []
  let np := (splitOnChar '/' parsed.path).foldl collapseStep []
  pure (urlunparse ⟨parsed.scheme, parsed.netloc, strJoin '/' np,
    parsed.params, parsed.query, []⟩)

/-- `parsed_url._replace(fragment="").geturl()` (lines 77–80). -/
def stripFrag (pr : ParseResult) : Str :=
  urlunparse ⟨pr.scheme, pr.netloc, pr.path, pr.params, pr.query, []⟩

/-- Lines 74–80 of the walker loop applied to a dequeued URL: normalize,
re-parse, clear the fragment and reassemble (`url_without_fragment`). -/
def uwfOf (u : Str) : Except Str Str := do
  let n ← normalize_url u
  let pr ← urlparse n []
  pure (stripFrag pr)

/-! ## `scraper.py`: scope pattern and suffix filter -/

/-- `IGNORED_SUFFIXES` (lines 16–22). -/
def IGNORED_SUFFIXES : List Str :=
  [lit ".rst", lit ".png", lit ".gif", lit ".jpeg", lit ".jpg"]

/-- Line 83: `any(url_without_fragment.endswith(suffix) for suffix in
IGNORED_SUFFIXES)`.  Note this tests the whole URL string. -/
def suffixHit (u : Str) : Bool :=
  IGNORED_SUFFIXES.any (fun suf => suf.isSuffixOf u)

/-- Lines 37–43: the literal text of the scope regex
`^{re.escape(base_url)}{re.escape(root_path)}(/|$)` minus the `(/|$)` tail;
`re.escape` makes `base_url + root_path` a literal. -/
def mkPat (pr : ParseResult) : Str :=
  (pr.scheme ++ lit "://" ++ pr.netloc) ++ rstripSlashes pr.path

/-- `url_pattern.match(s)` for the pattern `^literal(/|$)`: `s` starts with
the literal, followed by `'/'`, or the end of the string, or — because an
unanchored `$` also matches just before a trailing newline — a final
`'\n'`. -/
def patMatch (pat s : Str) : Bool :=
  pat.isPrefixOf s &&
    (let rest := s.drop pat.length
     rest.isEmpty || rest.head? == some '/' || rest == ['\n'])

/-! ## `scraper.py`: the fetch oracle

`requests.get` is modelled by an oracle mapping each URL to either a raised
`requests.RequestException` or a response.  A response carries the HTTP
status code, the `href` values of the `<a href=...>` anchors BeautifulSoup
finds in the body (discovery parses the body whatever the status code is —
the discovery loop never checks `response.status_code`), the declared
Content-Type, and the two texts `get_page_text` can extract from the body
(HTML text-strip and PDF text).  Byte-decoding with `chardet` and the lossy
UTF-8 fallback never fail and are absorbed into `htmlText`. -/

inductive Fetch where
  | exc : Fetch
  | page (status : Nat) (hrefs : List Str) (contentType : Str)
      (htmlText : Str) (pdfText : Str) : Fetch
deriving DecidableEq, Repr

/-- A frontier entry `(url, breadcrumb, depth)` (line 28). -/
structure Target where
  url : Str
  breadcrumb : List Str
  depth : Int
deriving DecidableEq, Repr

/-- The mutable state of the discovery loop.  `fetchLog` is ghost
instrumentation recording every URL passed to `requests.get` during
discovery, in order; it affects nothing. -/
structure St where
  queue : List Target
  visited : List Str
  failed : List Str
  cb : Int
  fetchLog : List Str
deriving DecidableEq, Repr

/-- The fixed data of one crawl: the fetch oracle, the scope-pattern
literal, `max_depth` and `max_consecutive_backtrack`. -/
structure Cfg where
  site : Str → Fetch
  pat : Str
  maxDepth : Int
  maxBacktrack : Int

/-- Lines 104–121: map one `href` of the fetched page to the in-scope,
suffix-filtered `absolute_url_without_fragment`, or `none`. -/
def processChild (pat : Str) (uwf : Str) (href : Str) : Except Str (Option Str) := do
  let a ← urljoin uwf href
  let n ← normalize_url a
  let pr ← urlparse n []
  let v := stripFrag pr
  pure (if patMatch pat v && !suffixHit v then some v else none)

/-- Lines 105–121: build `new_links` from the page's anchors, in order. -/
def computeNewLinks (pat : Str) (uwf : Str) (bc : List Str) (depth : Int)
    (hrefs : List Str) : Except Str (List Target) :=
  hrefs.foldlM (fun acc href => do
    match ← processChild pat uwf href with
    | some v => pure (acc ++ [⟨v, bc ++ [v], depth + 1⟩])
    | none => pure acc) []

/-- Lines 131–141 (aggressive backtracking): repeatedly pop the breadcrumb
tail while more than one entry remains; on the first ancestor not yet
visited, produce the target to insert at the front of the queue. -/
def aggressiveBacktrack (visited : List Str) (bc : List Str) (depth : Int) :
    Option Target :=
  if 1 < bc.length then
    let bc1 := bc.dropLast
    let depth1 := depth - 1
    match bc1.getLast? with
    | none => none
    | some u =>
      if u ∈ visited then aggressiveBacktrack visited bc1 depth1
      else some ⟨u, bc1, depth1⟩
  else none
termination_by bc.length
decreasing_by
  simp only [List.length_dropLast]
  omega

/-- Lines 143–150 (normal backtracking): pop one breadcrumb entry and, if
the breadcrumb is still non-empty, produce the front-insertion target. -/
def normalBacktrack (bc : List Str) (depth : Int) : Option Target :=
  if bc.isEmpty then none
  else
    let bc1 := bc.dropLast
    match bc1.getLast? with
    | none => none
    | some u => some ⟨u, bc1, depth - 1⟩

/-- One iteration of the `while queue:` loop (lines 70–154).
`.ok none` means the queue was empty (loop exit); `.error` models an
uncaught `ValueError` escaping from `urlparse`. -/
def step (cfg : Cfg) (s : St) : Except Str (Option St) :=
  match s.queue with
  | [] => .ok none
  | t :: rest => do
    let uwf ← uwfOf t.url
    if suffixHit uwf then
      pure (some { s with queue := rest })
    else if !patMatch cfg.pat uwf || decide (uwf ∈ s.visited) then
      pure (some { s with queue := rest })
    else
      let s1 : St :=
        { s with
          queue := rest
          visited := s.visited ++ [uwf]
          fetchLog := s.fetchLog ++ [uwf] }
      match cfg.site uwf with
      | .exc => pure (some { s1 with failed := s1.failed ++ [uwf] })
      | .page _ hrefs _ _ _ =>
        if t.depth < cfg.maxDepth then do
          let newLinks ← computeNewLinks cfg.pat uwf t.breadcrumb t.depth hrefs
          if !newLinks.isEmpty then
            pure (some { s1 with queue := rest ++ newLinks, cb := 0 })
          else
            let cb1 := s.cb + 1
            if cfg.maxBacktrack < cb1 then
              match aggressiveBacktrack s1.visited t.breadcrumb t.depth with
              | some tgt => pure (some { s1 with queue := tgt :: rest, cb := 0 })
              | none => pure (some { s1 with cb := cb1 })
            else
              match normalBacktrack t.breadcrumb t.depth with
              | some tgt => pure (some { s1 with queue := tgt :: rest, cb := cb1 })
              | none => pure (some { s1 with cb := cb1 })
        else pure (some s1)

/-- The initial state (lines 27–30): the queue holds
`(root_domain, [root_domain], 0)`. -/
def initSt (root : Str) : St := ⟨[⟨root, [root], 0⟩], [], [], 0, []⟩

/-- Fuel-indexed iteration of `step`.  `.ok (some s)` is normal loop exit
with final state `s`; `.ok none` means the fuel ran out. -/
def runDiscovery (cfg : Cfg) : Nat → St → Except Str (Option St)
  | 0, _ => .ok none
  | n + 1, s =>
    match step cfg s with
    | .error e => .error e
    | .ok none => .ok (some s)
    | .ok (some s1) => runDiscovery cfg n s1

/-! ## `scraper.py`: extraction phase (`get_page_text`, `scrape_url`) -/

/-- `get_page_text` (lines 181–213): raise on a raised `requests.get` or on
`raise_for_status` (HTTP 4xx/5xx); `application/pdf` content yields the PDF
text, or the fixed placeholder when PDF scraping is off; anything else
yields the HTML-stripped text. -/
def get_page_text (scrapePdfs : Bool) (f : Fetch) : Except Str Str :=
  match f with
  | .exc => .error (lit "RequestException")
  | .page status _ contentType htmlText pdfText =>
    if 400 ≤ status ∧ status < 600 then .error (lit "HTTPError")
    else if strContains (lit "application/pdf") (strLower contentType) then
      if scrapePdfs then .ok pdfText
      else .ok (lit "PDF content skipped as per user preference.")
    else .ok htmlText

/-- Lines 156–171: one fetch per visited URL; successes append
`(url, text)` to `data`, failures append the URL to `failed_pages`.  The
model processes `order` sequentially; `extraction` of the claims is
insensitive to the order.  The third component is the ghost log of URLs
fetched during extraction. -/
def runExtraction (scrapePdfs : Bool) (site : Str → Fetch) (order : List Str) :
    List (Str × Str) × List Str × List Str :=
  order.foldl (fun acc u =>
    match get_page_text scrapePdfs (site u) with
    | .ok txt => (acc.1 ++ [(u, txt)], acc.2.1, acc.2.2 ++ [u])
    | .error _ => (acc.1, acc.2.1 ++ [u], acc.2.2 ++ [u])) ([], [], [])

/-- Lines 173–175: `df.drop_duplicates(subset="main_body_text",
keep="first")` — keep a row iff no earlier row has the same text. -/
def drop_duplicates_by_text : List Str → List (Str × Str) → List (Str × Str)
  | _, [] => []
  | seen, p :: ps =>
    if p.2 ∈ seen then drop_duplicates_by_text seen ps
    else p :: drop_duplicates_by_text (seen ++ [p.2]) ps

/-- The value returned by `crawl_and_scrape` (the deduplicated data frame
and `failed_pages`), enriched with the final visited list and the two ghost
fetch logs. -/
structure CrawlResult where
  corpus : List (Str × Str)
  failed : List Str
  visited : List Str
  discLog : List Str
  extLog : List Str
deriving DecidableEq, Repr

/-- Lines 37–43: derive the scope configuration from the root URL. -/
def mkCfg (site : Str → Fetch) (root : Str) (maxDepth maxBacktrack : Int) :
    Except Str Cfg := do
  let pr ← urlparse root []
  pure ⟨site, mkPat pr, maxDepth, maxBacktrack⟩

/-- `crawl_and_scrape(root_domain, max_depth, max_consecutive_backtrack)`
(lines 26–178), with the PDF toggle of `get_page_text` passed explicitly
(in the source it is a module-level variable) and a fuel bound on the
discovery loop (`.ok none` = fuel exhausted). -/
def crawl_and_scrape (site : Str → Fetch) (scrapePdfs : Bool) (root : Str)
    (maxDepth maxBacktrack : Int) (fuel : Nat) : Except Str (Option CrawlResult) := do
  let cfg ← mkCfg site root maxDepth maxBacktrack
  match runDiscovery cfg fuel (initSt root) with
  | .error e => .error e
  | .ok none => pure none
  | .ok (some sf) =>
    let (data, extFailed, extLog) := runExtraction scrapePdfs site sf.visited
    pure (some ⟨drop_duplicates_by_text [] data, sf.failed ++ extFailed,
      sf.visited, sf.fetchLog, extLog⟩)

/-! ## The step relation and its case analysis -/

/-- One successful iteration of the walker's loop. -/
@[reducible] def Step (cfg : Cfg) (s s' : St) : Prop := step cfg s = .ok (some s')

/-- States reachable by the walker from the initial state for `root`. -/
def Reachable (cfg : Cfg) (root : Str) (s : St) : Prop :=
  Relation.ReflTransGen (Step cfg) (initSt root) s

/-- The state after line 92 (`visited_urls.add`) and the fetch, before any
queue modification. -/
def postVisit (s : St) (rest : List Target) (uwf : Str) : St :=
  ⟨rest, s.visited ++ [uwf], s.failed, s.cb, s.fetchLog ++ [uwf]⟩

/-- Exhaustive description of what one successful `step` can do. -/
def StepSpec (cfg : Cfg) (s s' : St) : Prop :=
  ∃ t rest uwf, s.queue = t :: rest ∧ uwfOf t.url = .ok uwf ∧
    (((suffixHit uwf = true ∨ patMatch cfg.pat uwf = false ∨ uwf ∈ s.visited) ∧
       s' = { s with queue := rest }) ∨
     (suffixHit uwf = false ∧ patMatch cfg.pat uwf = true ∧ uwf ∉ s.visited ∧
       ((cfg.site uwf = .exc ∧
          s' = { postVisit s rest uwf with failed := s.failed ++ [uwf] }) ∨
        (∃ st hrefs ct ht pt, cfg.site uwf = .page st hrefs ct ht pt ∧
          ((¬ t.depth < cfg.maxDepth ∧ s' = postVisit s rest uwf) ∨
           (t.depth < cfg.maxDepth ∧
             ∃ nl, computeNewLinks cfg.pat uwf t.breadcrumb t.depth hrefs = .ok nl ∧
               ((nl ≠ [] ∧
                  s' = { postVisit s rest uwf with queue := rest ++ nl, cb := 0 }) ∨
                (nl = [] ∧
                  ((cfg.maxBacktrack < s.cb + 1 ∧
                     ((∃ tgt,
                        aggressiveBacktrack (s.visited ++ [uwf]) t.breadcrumb t.depth
                            = some tgt ∧
                          s' = { postVisit s rest uwf with queue := tgt :: rest, cb := 0 }) ∨
                      (aggressiveBacktrack (s.visited ++ [uwf]) t.breadcrumb t.depth
                            = none ∧
                        s' = { postVisit s rest uwf with cb := s.cb + 1 }))) ∨
                   (¬ cfg.maxBacktrack < s.cb + 1 ∧
                     ((∃ tgt, normalBacktrack t.breadcrumb t.depth = some tgt ∧
                        s' = { postVisit s rest uwf with
                                 queue := tgt :: rest, cb := s.cb + 1 }) ∨
                      (normalBacktrack t.breadcrumb t.depth = none ∧
                        s' = { postVisit s rest uwf with cb := s.cb + 1 }))))))))))))

theorem step_spec_of_step {cfg : Cfg} {s s' : St} (h : Step cfg s s') :
    StepSpec cfg s s' := by
  unfold Step step at h
  split at h
  · exact absurd h (by simp)
  next t rest hq =>
    refine ⟨t, rest, ?_⟩
    match huwf : uwfOf t.url with
    | .error e =>
      rw [huwf] at h
      exact absurd h (by simp [bind, Except.bind, Except.instMonad])
    | .ok uwf =>
      rw [huwf] at h
      simp only [bind, Except.bind, Except.instMonad] at h
      refine ⟨uwf, hq, rfl, ?_⟩
      by_cases hsuf : suffixHit uwf = true
      · rw [if_pos hsuf] at h
        simp only [pure, Except.pure, Except.ok.injEq, Option.some.injEq] at h
        exact Or.inl ⟨Or.inl hsuf, h.symm⟩
      · rw [if_neg hsuf] at h
        replace hsuf : suffixHit uwf = false := by
          revert hsuf; cases suffixHit uwf <;> simp
        by_cases hpm : patMatch cfg.pat uwf = true
        · by_cases hvis : uwf ∈ s.visited
          · rw [if_pos (by simp [hpm, hvis])] at h
            simp only [pure, Except.pure, Except.ok.injEq, Option.some.injEq] at h
            exact Or.inl ⟨Or.inr (Or.inr hvis), h.symm⟩
          · rw [if_neg (by simp [hpm, hvis])] at h
            refine Or.inr ⟨hsuf, hpm, hvis, ?_⟩
            match hsite : cfg.site uwf with
            | .exc =>
              rw [hsite] at h
              simp only [pure, Except.pure, Except.ok.injEq, Option.some.injEq] at h
              exact Or.inl ⟨rfl, by simp [postVisit, ← h]⟩
            | .page st hrefs ct ht pt =>
              rw [hsite] at h
              dsimp only at h
              refine Or.inr ⟨st, hrefs, ct, ht, pt, rfl, ?_⟩
              by_cases hd : t.depth < cfg.maxDepth
              · rw [if_pos hd] at h
                match hnl : computeNewLinks cfg.pat uwf t.breadcrumb t.depth hrefs with
                | .error e =>
                  rw [hnl] at h
                  exact absurd h (by simp [bind, Except.bind, Except.instMonad])
                | .ok nl =>
                  rw [hnl] at h
                  simp only [bind, Except.bind, Except.instMonad] at h
                  refine Or.inr ⟨hd, nl, rfl, ?_⟩
                  by_cases hne : nl.isEmpty = true
                  · rw [if_neg (by simp [hne])] at h
                    refine Or.inr ⟨List.isEmpty_iff.mp hne, ?_⟩
                    by_cases hcb : cfg.maxBacktrack < s.cb + 1
                    · rw [if_pos hcb] at h
                      match hab : aggressiveBacktrack (s.visited ++ [uwf]) t.breadcrumb t.depth with
                      | some tgt =>
                        rw [hab] at h
                        simp only [pure, Except.pure, Except.ok.injEq, Option.some.injEq] at h
                        exact Or.inl ⟨hcb, Or.inl ⟨tgt, rfl, by simp [postVisit, ← h]⟩⟩
                      | none =>
                        rw [hab] at h
                        simp only [pure, Except.pure, Except.ok.injEq, Option.some.injEq] at h
                        exact Or.inl ⟨hcb, Or.inr ⟨rfl, by simp [postVisit, ← h]⟩⟩
                    · rw [if_neg hcb] at h
                      match hnb : normalBacktrack t.breadcrumb t.depth with
                      | some tgt =>
                        rw [hnb] at h
                        simp only [pure, Except.pure, Except.ok.injEq, Option.some.injEq] at h
                        exact Or.inr ⟨hcb, Or.inl ⟨tgt, rfl, by simp [postVisit, ← h]⟩⟩
                      | none =>
                        rw [hnb] at h
                        simp only [pure, Except.pure, Except.ok.injEq, Option.some.injEq] at h
                        exact Or.inr ⟨hcb, Or.inr ⟨rfl, by simp [postVisit, ← h]⟩⟩
                  · rw [if_pos (by simp [Bool.not_eq_true] at hne; simp [hne])] at h
                    simp only [pure, Except.pure, Except.ok.injEq, Option.some.injEq] at h
                    refine Or.inl ⟨?_, by simp [postVisit, ← h]⟩
                    intro hnil
                    exact hne (by simp [hnil])
              · rw [if_neg hd] at h
                simp only [pure, Except.pure, Except.ok.injEq, Option.some.injEq] at h
                exact Or.inl ⟨hd, by simp [postVisit, ← h]⟩
        · replace hpm : patMatch cfg.pat uwf = false := by
            revert hpm; cases patMatch cfg.pat uwf <;> simp
          rw [if_pos (by simp [hpm])] at h
          simp only [pure, Except.pure, Except.ok.injEq, Option.some.injEq] at h
          exact Or.inl ⟨Or.inr (Or.inl hpm), h.symm⟩

/-! ## Properties of the walker's auxiliary functions -/

theorem normalBacktrack_spec {bc : List Str} {depth : Int} {tgt : Target}
    (h : normalBacktrack bc depth = some tgt) :
    tgt.breadcrumb = bc.dropLast ∧ tgt.breadcrumb.getLast? = some tgt.url ∧
      tgt.depth = depth - 1 := by
  unfold normalBacktrack at h
  split at h
  · exact absurd h (by simp)
  · dsimp only at h
    split at h
    · exact absurd h (by simp)
    · next u hu =>
      simp only [Option.some.injEq] at h
      exact ⟨by rw [← h], by rw [← h]; exact hu, by rw [← h]⟩

theorem aggressiveBacktrack_spec_aux {visited : List Str} :
    ∀ (n : Nat) (bc : List Str), bc.length ≤ n → ∀ (depth : Int) (tgt : Target),
      aggressiveBacktrack visited bc depth = some tgt →
      tgt.breadcrumb <+: bc ∧ tgt.breadcrumb.getLast? = some tgt.url ∧
        tgt.depth ≤ depth - 1 ∧ tgt.url ∉ visited := by
  intro n
  induction n with
  | zero =>
    intro bc hlen depth tgt h
    unfold aggressiveBacktrack at h
    rw [if_neg (by omega)] at h
    exact absurd h (by simp)
  | succ n ih =>
    intro bc hlen depth tgt h
    unfold aggressiveBacktrack at h
    split at h
    · next hgt =>
      dsimp only at h
      split at h
      · exact absurd h (by simp)
      · next u hu =>
        split at h
        · next hmem =>
          have hrec := ih bc.dropLast (by simp [List.length_dropLast]; omega) _ _ h
          exact ⟨hrec.1.trans (List.dropLast_prefix bc), hrec.2.1, by omega, hrec.2.2.2⟩
        · next hmem =>
          simp only [Option.some.injEq] at h
          refine ⟨by rw [← h]; exact List.dropLast_prefix bc,
            by rw [← h]; exact hu, by rw [← h], by rw [← h]; exact hmem⟩
    · exact absurd h (by simp)

theorem aggressiveBacktrack_spec {visited bc : List Str} {depth : Int} {tgt : Target}
    (h : aggressiveBacktrack visited bc depth = some tgt) :
    tgt.breadcrumb <+: bc ∧ tgt.breadcrumb.getLast? = some tgt.url ∧
      tgt.depth ≤ depth - 1 ∧ tgt.url ∉ visited :=
  aggressiveBacktrack_spec_aux bc.length bc le_rfl depth tgt h

theorem computeNewLinks_aux {pat uwf : Str} {bc : List Str} {depth : Int}
    {hrefs : List Str} {acc nl : List Target}
    (h : hrefs.foldlM (fun acc href => do
        match ← processChild pat uwf href with
        | some v => pure (acc ++ [⟨v, bc ++ [v], depth + 1⟩])
        | none => pure acc) acc = Except.ok nl) :
    (∀ tg ∈ nl, tg ∈ acc ∨
      (∃ href ∈ hrefs, processChild pat uwf href = .ok (some tg.url)) ∧
        tg.breadcrumb = bc ++ [tg.url] ∧ tg.depth = depth + 1) ∧
      nl.length ≤ acc.length + hrefs.length := by
  induction hrefs generalizing acc with
  | nil =>
    simp only [List.foldlM, pure, Except.pure, Except.ok.injEq] at h
    subst h
    exact ⟨fun tg htg => Or.inl htg, by simp⟩
  | cons href hrefs ih =>
    simp only [List.foldlM, bind, Except.bind, Except.instMonad] at h
    match hpc : processChild pat uwf href with
    | .error e => rw [hpc] at h; exact absurd h (by simp)
    | .ok none =>
      rw [hpc] at h
      dsimp only at h
      have := ih h
      refine ⟨fun tg htg => ?_, by
        have h2 := this.2
        simp only [List.length_append, List.length_cons, List.length_nil] at h2 ⊢
        omega⟩
      rcases this.1 tg htg with hin | ⟨⟨hr, hrm, hre⟩, hrest⟩
      · exact Or.inl hin
      · exact Or.inr ⟨⟨hr, List.mem_cons_of_mem _ hrm, hre⟩, hrest⟩
    | .ok (some v) =>
      rw [hpc] at h
      dsimp only at h
      have := ih h
      refine ⟨fun tg htg => ?_, by
        have h2 := this.2
        simp only [List.length_append, List.length_cons, List.length_nil] at h2 ⊢
        omega⟩
      rcases this.1 tg htg with hin | ⟨⟨hr, hrm, hre⟩, hrest⟩
      · rcases List.mem_append.mp hin with hin | hin
        · exact Or.inl hin
        · simp only [List.mem_singleton] at hin
          subst hin
          exact Or.inr ⟨⟨href, List.mem_cons_self _ _, hpc⟩, rfl, rfl⟩
      · exact Or.inr ⟨⟨hr, List.mem_cons_of_mem _ hrm, hre⟩, hrest⟩

theorem computeNewLinks_spec {pat uwf : Str} {bc : List Str} {depth : Int}
    {hrefs : List Str} {nl : List Target}
    (h : computeNewLinks pat uwf bc depth hrefs = .ok nl) :
    (∀ tg ∈ nl,
      (∃ href ∈ hrefs, processChild pat uwf href = .ok (some tg.url)) ∧
        tg.breadcrumb = bc ++ [tg.url] ∧ tg.depth = depth + 1) ∧
      nl.length ≤ hrefs.length := by
  have := @computeNewLinks_aux pat uwf bc depth hrefs [] nl h
  refine ⟨fun tg htg => ?_, by have := this.2; simpa using this⟩
  rcases this.1 tg htg with hin | hgood
  · exact absurd hin (List.not_mem_nil tg)
  · exact hgood

/-- The reachability induction principle for walker invariants. -/
theorem reachable_ind {cfg : Cfg} {root : Str} {P : St → Prop}
    (hinit : P (initSt root))
    (hstep : ∀ s s', P s → Step cfg s s' → P s') :
    ∀ s, Reachable cfg root s → P s := by
  intro s h
  induction h with
  | refl => exact hinit
  | tail _ hstep1 ih => exact hstep _ _ ih hstep1

/-! ## Walker invariants -/

/-- Core invariant of the discovery loop: the visited list has no
duplicates, the URLs fetched during discovery are exactly the visited URLs
in visiting order, and no visited URL ends with an ignored suffix. -/
def DiscInv (s : St) : Prop :=
  s.visited.Nodup ∧ s.fetchLog = s.visited ∧ ∀ u ∈ s.visited, suffixHit u = false

theorem discInv_init (root : Str) : DiscInv (initSt root) := by
  refine ⟨List.nodup_nil, rfl, ?_⟩
  intro u hu
  exact absurd hu (List.not_mem_nil u)

theorem visited_step_eq {cfg : Cfg} {s s' : St} (h : Step cfg s s') :
    (s'.visited = s.visited ∧ s'.fetchLog = s.fetchLog) ∨
      ∃ uwf, uwf ∉ s.visited ∧ suffixHit uwf = false ∧ patMatch cfg.pat uwf = true ∧
        s'.visited = s.visited ++ [uwf] ∧ s'.fetchLog = s.fetchLog ++ [uwf] := by
  rcases step_spec_of_step h with ⟨t, rest, uwf, hq, huwf, hcase⟩
  rcases hcase with ⟨_, rfl⟩ | ⟨hsuf, hpm, hvis, hcase⟩
  · exact Or.inl ⟨rfl, rfl⟩
  · refine Or.inr ⟨uwf, hvis, hsuf, hpm, ?_⟩
    rcases hcase with ⟨_, rfl⟩ | ⟨st, hrefs, ct, ht, pt, _, hcase⟩
    · exact ⟨rfl, rfl⟩
    · rcases hcase with ⟨_, rfl⟩ | ⟨_, nl, _, hcase⟩
      · exact ⟨rfl, rfl⟩
      · rcases hcase with ⟨_, rfl⟩ | ⟨_, hcase⟩
        · exact ⟨rfl, rfl⟩
        · rcases hcase with ⟨_, ⟨tgt, _, rfl⟩ | ⟨_, rfl⟩⟩ | ⟨_, ⟨tgt, _, rfl⟩ | ⟨_, rfl⟩⟩ <;>
            exact ⟨rfl, rfl⟩

theorem failed_step_eq {cfg : Cfg} {s s' : St} (h : Step cfg s s') :
    s'.failed = s.failed ∨
      ∃ uwf, s'.failed = s.failed ++ [uwf] ∧ s'.visited = s.visited ++ [uwf] ∧
        uwf ∉ s.visited := by
  rcases step_spec_of_step h with ⟨t, rest, uwf, hq, huwf, hcase⟩
  rcases hcase with ⟨_, rfl⟩ | ⟨hsuf, hpm, hvis, hcase⟩
  · exact Or.inl rfl
  · rcases hcase with ⟨_, rfl⟩ | ⟨st, hrefs, ct, ht, pt, _, hcase⟩
    · exact Or.inr ⟨uwf, rfl, rfl, hvis⟩
    · rcases hcase with ⟨_, rfl⟩ | ⟨_, nl, _, hcase⟩
      · exact Or.inl rfl
      · rcases hcase with ⟨_, rfl⟩ | ⟨_, hcase⟩
        · exact Or.inl rfl
        · rcases hcase with ⟨_, ⟨tgt, _, rfl⟩ | ⟨_, rfl⟩⟩ | ⟨_, ⟨tgt, _, rfl⟩ | ⟨_, rfl⟩⟩ <;>
            exact Or.inl rfl

theorem discInv_step {cfg : Cfg} {s s' : St} (hinv : DiscInv s) (h : Step cfg s s') :
    DiscInv s' := by
  obtain ⟨hnd, hlog, hsufall⟩ := hinv
  rcases visited_step_eq h with ⟨hv, hl⟩ | ⟨uwf, hvis, hsuf, _, hv, hl⟩
  · rw [DiscInv, hv, hl]
    exact ⟨hnd, hlog, hsufall⟩
  · refine ⟨?_, by rw [hl, hlog, hv], ?_⟩
    · rw [hv]
      exact List.Nodup.append hnd (List.nodup_singleton uwf)
        (by simpa using fun hmem => hvis hmem)
    · intro u hu
      rw [hv] at hu
      rcases List.mem_append.mp hu with hu | hu
      · exact hsufall u hu
      · rw [List.mem_singleton.mp hu]
        exact hsuf

theorem visited_prefix_step {cfg : Cfg} {s s' : St} (h : Step cfg s s') :
    s.visited <+: s'.visited := by
  rcases visited_step_eq h with ⟨hv, _⟩ | ⟨uwf, _, _, _, hv, _⟩
  · rw [hv]
  · rw [hv]; exact ⟨[uwf], rfl⟩

theorem discInv_reachable {cfg : Cfg} {root : Str} {s : St}
    (h : Reachable cfg root s) : DiscInv s :=
  reachable_ind (discInv_init root) (fun _ _ hP hst => discInv_step hP hst) s h

/-- Depth invariant: every target on the queue has depth at most
`cfg.maxDepth` (requires a non-negative configured bound for the root
target). -/
def DepthInv (cfg : Cfg) (s : St) : Prop :=
  ∀ tg ∈ s.queue, tg.depth ≤ cfg.maxDepth

theorem depthInv_init {cfg : Cfg} (root : Str) (h0 : 0 ≤ cfg.maxDepth) :
    DepthInv cfg (initSt root) := by
  intro tg htg
  simp only [initSt, List.mem_singleton] at htg
  rw [htg]
  exact h0

theorem depthInv_step {cfg : Cfg} {s s' : St} (hinv : DepthInv cfg s)
    (h : Step cfg s s') : DepthInv cfg s' := by
  rcases step_spec_of_step h with ⟨t, rest, uwf, hq, huwf, hcase⟩
  have htq : t.depth ≤ cfg.maxDepth := hinv t (by rw [hq]; exact List.mem_cons_self _ _)
  have hrest : ∀ tg ∈ rest, tg.depth ≤ cfg.maxDepth := by
    intro tg htg
    exact hinv tg (by rw [hq]; exact List.mem_cons_of_mem _ htg)
  rcases hcase with ⟨_, rfl⟩ | ⟨hsuf, hpm, hvis, hcase⟩
  · exact hrest
  · rcases hcase with ⟨_, rfl⟩ | ⟨st, hrefs, ct, ht, pt, _, hcase⟩
    · exact hrest
    · rcases hcase with ⟨_, rfl⟩ | ⟨hd, nl, hnl, hcase⟩
      · exact hrest
      · rcases hcase with ⟨_, rfl⟩ | ⟨_, hcase⟩
        · intro tg htg
          rcases List.mem_append.mp htg with htg | htg
          · exact hrest tg htg
          · have := (computeNewLinks_spec hnl).1 tg htg
            rw [this.2.2]
            omega
        · rcases hcase with ⟨_, ⟨tgt, habt, rfl⟩ | ⟨_, rfl⟩⟩ | ⟨_, ⟨tgt, hnbt, rfl⟩ | ⟨_, rfl⟩⟩
          · intro tg htg
            rcases List.mem_cons.mp htg with htg | htg
            · rw [htg]
              have := (aggressiveBacktrack_spec habt).2.2.1
              omega
            · exact hrest tg htg
          · exact hrest
          · intro tg htg
            rcases List.mem_cons.mp htg with htg | htg
            · rw [htg]
              have := (normalBacktrack_spec hnbt).2.2
              omega
            · exact hrest tg htg
          · exact hrest

theorem depthInv_reachable {cfg : Cfg} {root : Str} {s : St}
    (h0 : 0 ≤ cfg.maxDepth) (h : Reachable cfg root s) : DepthInv cfg s :=
  reachable_ind (depthInv_init root h0) (fun _ _ hP hst => depthInv_step hP hst) s h

/-! ## Forward evaluation lemmas for single steps -/

theorem step_skip_suffix_eq {cfg : Cfg} {s : St} {t : Target} {rest : List Target}
    {uwf : Str} (hq : s.queue = t :: rest) (huwf : uwfOf t.url = .ok uwf)
    (hsuf : suffixHit uwf = true) :
    step cfg s = .ok (some { s with queue := rest }) := by
  simp only [step, hq, huwf, bind, Except.bind, Except.instMonad]
  rw [if_pos hsuf]
  rfl

theorem step_skip_scope_eq {cfg : Cfg} {s : St} {t : Target} {rest : List Target}
    {uwf : Str} (hq : s.queue = t :: rest) (huwf : uwfOf t.url = .ok uwf)
    (hsuf : suffixHit uwf = false) (hpm : patMatch cfg.pat uwf = false) :
    step cfg s = .ok (some { s with queue := rest }) := by
  simp only [step, hq, huwf, bind, Except.bind, Except.instMonad]
  rw [if_neg (by simp [hsuf]), if_pos (by simp [hpm])]
  rfl

theorem step_exc_eq {cfg : Cfg} {s : St} {t : Target} {rest : List Target}
    {uwf : Str} (hq : s.queue = t :: rest) (huwf : uwfOf t.url = .ok uwf)
    (hsuf : suffixHit uwf = false) (hpm : patMatch cfg.pat uwf = true)
    (hvis : uwf ∉ s.visited) (hexc : cfg.site uwf = .exc) :
    step cfg s = .ok (some ⟨rest, s.visited ++ [uwf], s.failed ++ [uwf], s.cb,
      s.fetchLog ++ [uwf]⟩) := by
  simp only [step, hq, huwf, bind, Except.bind, Except.instMonad]
  rw [if_neg (by simp [hsuf]), if_neg (by simp [hpm, hvis]), hexc]
  rfl

theorem step_done_queue {cfg : Cfg} {s : St} (h : step cfg s = .ok none) :
    s.queue = [] := by
  match hq : s.queue with
  | [] => rfl
  | t :: rest =>
    exfalso
    simp only [step, hq] at h
    rcases huwf : uwfOf t.url with e | uwf <;> rw [huwf] at h <;>
      simp only [bind, Except.bind, Except.instMonad] at h
    · exact absurd h (by simp)
    · repeat' split at h
      all_goals simp [pure, Except.pure] at h

/-! ## Run-level lemmas -/

theorem runDiscovery_reachable {cfg : Cfg} :
    ∀ {n : Nat} {s sf : St}, runDiscovery cfg n s = .ok (some sf) →
      Relation.ReflTransGen (Step cfg) s sf := by
  intro n
  induction n with
  | zero =>
    intro s sf h
    exact absurd h (by simp [runDiscovery])
  | succ n ih =>
    intro s sf h
    unfold runDiscovery at h
    split at h
    · exact absurd h (by simp)
    · next hdone =>
      simp only [Except.ok.injEq, Option.some.injEq] at h
      rw [← h]
    · next s1 hstep =>
      exact Relation.ReflTransGen.head hstep (ih h)

theorem runDiscovery_final_queue {cfg : Cfg} :
    ∀ {n : Nat} {s sf : St}, runDiscovery cfg n s = .ok (some sf) →
      sf.queue = [] := by
  intro n
  induction n with
  | zero =>
    intro s sf h
    exact absurd h (by simp [runDiscovery])
  | succ n ih =>
    intro s sf h
    unfold runDiscovery at h
    split at h
    · exact absurd h (by simp)
    · next hdone =>
      simp only [Except.ok.injEq, Option.some.injEq] at h
      rw [← h]
      exact step_done_queue hdone
    · exact ih h

theorem runExtraction_log_aux (sp : Bool) (site : Str → Fetch) :
    ∀ (order : List Str) (acc : List (Str × Str) × List Str × List Str),
      (order.foldl (fun acc u =>
        match get_page_text sp (site u) with
        | .ok txt => (acc.1 ++ [(u, txt)], acc.2.1, acc.2.2 ++ [u])
        | .error _ => (acc.1, acc.2.1 ++ [u], acc.2.2 ++ [u])) acc).2.2
        = acc.2.2 ++ order := by
  intro order
  induction order with
  | nil => intro acc; simp [List.foldl]
  | cons u order ih =>
    intro acc
    simp only [List.foldl]
    rcases hgp : get_page_text sp (site u) with e | txt <;>
      rw [ih] <;> simp

theorem runExtraction_log (sp : Bool) (site : Str → Fetch) (order : List Str) :
    (runExtraction sp site order).2.2 = order := by
  unfold runExtraction
  rw [runExtraction_log_aux]
  simp

theorem crawl_run_spec {site : Str → Fetch} {sp : Bool} {root : Str}
    {md mb : Int} {fuel : Nat} {res : CrawlResult}
    (h : crawl_and_scrape site sp root md mb fuel = .ok (some res)) :
    ∃ cfg sf, mkCfg site root md mb = .ok cfg ∧
      runDiscovery cfg fuel (initSt root) = .ok (some sf) ∧
      res = ⟨drop_duplicates_by_text [] (runExtraction sp site sf.visited).1,
             sf.failed ++ (runExtraction sp site sf.visited).2.1,
             sf.visited, sf.fetchLog, (runExtraction sp site sf.visited).2.2⟩ := by
  unfold crawl_and_scrape at h
  rcases hcfg : mkCfg site root md mb with e | cfg <;> rw [hcfg] at h <;>
    simp only [bind, Except.bind, Except.instMonad] at h
  · exact absurd h (by simp)
  · rcases hrun : runDiscovery cfg fuel (initSt root) with e | osf <;> rw [hrun] at h
    · exact absurd h (by simp)
    · match osf with
      | none => exact absurd h (by simp [pure, Except.pure])
      | some sf =>
        refine ⟨cfg, sf, rfl, hrun, ?_⟩
        dsimp only at h
        simp only [pure, Except.pure, Except.ok.injEq, Option.some.injEq] at h
        rw [← h]

/-! ## Deduplication lemmas (`drop_duplicates(subset=..., keep="first")`) -/

theorem dd_mem_not_seen : ∀ {seen : List Str} {l : List (Str × Str)} {p : Str × Str},
    p ∈ drop_duplicates_by_text seen l → p.2 ∉ seen := by
  intro seen l
  induction l generalizing seen with
  | nil => intro p hp; exact absurd hp (List.not_mem_nil p)
  | cons q l ih =>
    intro p hp
    unfold drop_duplicates_by_text at hp
    split at hp
    · exact ih hp
    · next hq =>
      rcases List.mem_cons.mp hp with rfl | hp
      · exact hq
      · intro hmem
        exact ih hp (List.mem_append_left _ hmem)

theorem dd_sublist (seen : List Str) (l : List (Str × Str)) :
    (drop_duplicates_by_text seen l).Sublist l := by
  induction l generalizing seen with
  | nil => simp [drop_duplicates_by_text]
  | cons q l ih =>
    unfold drop_duplicates_by_text
    split
    · exact (ih seen).trans (List.sublist_cons_self q l)
    · exact List.Sublist.cons₂ q (ih (seen ++ [q.2]))

theorem dd_pairwise (seen : List Str) (l : List (Str × Str)) :
    (drop_duplicates_by_text seen l).Pairwise (fun a b => a.2 ≠ b.2) := by
  induction l generalizing seen with
  | nil => simp [drop_duplicates_by_text]
  | cons q l ih =>
    unfold drop_duplicates_by_text
    split
    · exact ih seen
    · refine List.Pairwise.cons ?_ (ih (seen ++ [q.2]))
      intro p hp heq
      exact dd_mem_not_seen hp (List.mem_append_right _ (by rw [← heq]; exact List.mem_singleton_self _))

theorem dd_find? (T : Str) : ∀ (seen : List Str) (l : List (Str × Str)), T ∉ seen →
    (drop_duplicates_by_text seen l).find? (fun p => p.2 == T)
      = l.find? (fun p => p.2 == T) := by
  intro seen l
  induction l generalizing seen with
  | nil => intro _; rfl
  | cons q l ih =>
    intro hT
    unfold drop_duplicates_by_text
    split
    · next hq =>
      rw [ih seen hT]
      have hne : (q.2 == T) = false := by
        apply beq_eq_false_iff_ne.mpr
        intro heq
        exact hT (heq ▸ hq)
      rw [List.find?]
      rw [hne]
    · next hq =>
      by_cases heq : q.2 = T
      · rw [List.find?, List.find?]
        rw [show (q.2 == T) = true from beq_iff_eq.mpr heq]
      · have hne : (q.2 == T) = false := beq_eq_false_iff_ne.mpr heq
        rw [List.find?, List.find?, hne]
        exact ih (seen ++ [q.2]) (by
          intro hmem
          rcases List.mem_append.mp hmem with hmem | hmem
          · exact hT hmem
          · exact heq (List.mem_singleton.mp hmem).symm)

theorem dd_covers : ∀ {seen : List Str} {l : List (Str × Str)} {p : Str × Str},
    p ∈ l → p.2 ∉ seen → ∃ q ∈ drop_duplicates_by_text seen l, q.2 = p.2 := by
  intro seen l
  induction l generalizing seen with
  | nil => intro p hp; exact absurd hp (List.not_mem_nil p)
  | cons q l ih =>
    intro p hp hseen
    unfold drop_duplicates_by_text
    split
    · next hq =>
      rcases List.mem_cons.mp hp with rfl | hp
      · exact absurd hq hseen
      · exact ih hp hseen
    · next hq =>
      rcases List.mem_cons.mp hp with hpq | hp
      · exact ⟨q, List.mem_cons_self _ _, by rw [hpq]⟩
      · by_cases heq : p.2 = q.2
        · exact ⟨q, List.mem_cons_self _ _, heq.symm⟩
        · obtain ⟨r, hr, hre⟩ := ih hp (by
            intro hmem
            rcases List.mem_append.mp hmem with hmem | hmem
            · exact hseen hmem
            · exact heq (List.mem_singleton.mp hmem))
          exact ⟨r, List.mem_cons_of_mem _ hr, hre⟩

/-! ## Concrete sites used by witnesses and counterexamples

Each acts as the network oracle of one small synthetic crawl; URLs not in
the table raise `requests.RequestException` (modelling a connection
error). -/

def lookupSite (l : List (Str × Fetch)) : Str → Fetch := fun u =>
  match l.find? (fun p => p.1 == u) with
  | some p => p.2
  | none => .exc

/-- A site whose root answers HTTP 404 yet carries an in-scope link. -/
def c1site : Str → Fetch :=
  lookupSite
    [(lit "http://h/x", .page 404 [lit "x/a"] (lit "text/html") (lit "T1") []),
     (lit "http://h/x/a", .page 200 [] (lit "text/html") (lit "T2") [])]

/-- The scope configuration the engine builds for root `http://h/x` over
`c1site`. -/
def c1cfg : Cfg := ⟨c1site, lit "http://h/x", 5, 20⟩

/-- A site where every fetch raises `requests.RequestException`. -/
def c2site : Str → Fetch := lookupSite []

/-- The scope configuration for root `http://h/x` over `c2site`. -/
def c2cfg : Cfg := ⟨c2site, lit "http://h/x", 5, 20⟩

/-- A site whose root links to a URL whose path ends in `.png` but which
carries a query string. -/
def c7site : Str → Fetch :=
  lookupSite
    [(lit "http://h/x", .page 200 [lit "x/a.png?q=1"] (lit "text/html") (lit "T1") []),
     (lit "http://h/x/a.png?q=1", .page 200 [] (lit "text/html") (lit "T2") [])]

/-- The scope configuration for root `http://h/x` over `c7site`. -/
def c7cfg : Cfg := ⟨c7site, lit "http://h/x", 5, 20⟩

/-- The `path` component `urlparse` assigns to a URL (used to state claims
that speak about "the URL's path"). -/
def urlPathOf (u : Str) : Option Str := (urlparse u []).toOption.map ParseResult.path

theorem runDiscovery_step_cons {cfg : Cfg} {n : Nat} {s s1 : St}
    (h : step cfg s = .ok (some s1)) :
    runDiscovery cfg (n + 1) s = runDiscovery cfg n s1 := by
  simp only [runDiscovery, h]

theorem runDiscovery_done {cfg : Cfg} {n : Nat} {s : St}
    (h : step cfg s = .ok none) :
    runDiscovery cfg (n + 1) s = .ok (some s) := by
  simp only [runDiscovery, h]

/-! ## Claim theorems -/

/-- Claim C1, counterexample.  The claim says a non-2xx HTTP status during a
discovery fetch is recorded as a FailureRecord and the URL's children are
never enqueued.  In the code, `requests.get` raises no exception for a
non-2xx response and the discovery loop never reads `response.status_code`,
so the 404 root of `c1site` produces no failure record and its in-scope
child is enqueued, dequeued and visited: the final discovery state has an
empty `failed_pages` list and both URLs visited. -/
theorem C1_counterexample :
    c1site (lit "http://h/x")
        = Fetch.page 404 [lit "x/a"] (lit "text/html") (lit "T1") [] ∧
    mkCfg c1site (lit "http://h/x") 5 20 = .ok c1cfg ∧
    runDiscovery c1cfg 10 (initSt (lit "http://h/x"))
        = .ok (some ⟨[], [lit "http://h/x", lit "http://h/x/a"], [], 1,
            [lit "http://h/x", lit "http://h/x/a"]⟩) := by
  refine ⟨by decide, by rfl, by decide⟩

/-- Claim C1, amended.  For every dequeued in-scope, suffix-allowed, not
yet visited URL whose discovery fetch raises (`requests.RequestException`:
network error or timeout — a non-2xx response raises nothing and is parsed
for links as usual), the URL is recorded in `failed_pages`, nothing is
enqueued (in particular no children of that URL), the URL is marked
visited, and the loop continues with the rest of the queue unchanged. -/
theorem C1_amended_thm {cfg : Cfg} {s : St} {t : Target} {rest : List Target}
    {uwf : Str} (hq : s.queue = t :: rest) (huwf : uwfOf t.url = .ok uwf)
    (hsuf : suffixHit uwf = false) (hpm : patMatch cfg.pat uwf = true)
    (hvis : uwf ∉ s.visited) (hexc : cfg.site uwf = .exc) :
    step cfg s = .ok (some ⟨rest, s.visited ++ [uwf], s.failed ++ [uwf], s.cb,
      s.fetchLog ++ [uwf]⟩) :=
  step_exc_eq hq huwf hsuf hpm hvis hexc

/-- Claim C1, witness for the amended theorem: the root of the all-failing
site `c2site` is dequeued, its fetch raises, and one step yields exactly
the failure record plus an otherwise empty queue. -/
theorem C1_amended_witness :
    step c2cfg (initSt (lit "http://h/x"))
      = .ok (some ⟨[], [lit "http://h/x"], [lit "http://h/x"], 0, [lit "http://h/x"]⟩) :=
  @C1_amended_thm c2cfg (initSt (lit "http://h/x"))
    ⟨lit "http://h/x", [lit "http://h/x"], 0⟩ []
    (lit "http://h/x") rfl (by decide) (by decide) (by decide)
    (by decide) (by decide)

/-- Claim C2, counterexample.  The root of `c2site` fails during discovery
(so it has a FailureRecord), yet the extraction phase fetches it again —
the URL occurs in both ghost fetch logs, i.e. it is fetched twice within
the same run, and it even receives a second FailureRecord. -/
theorem C2_counterexample :
    crawl_and_scrape c2site true (lit "http://h/x") 5 20 10
        = .ok (some ⟨[], [lit "http://h/x", lit "http://h/x"], [lit "http://h/x"],
            [lit "http://h/x"], [lit "http://h/x"]⟩) ∧
    ([lit "http://h/x"] ++ [lit "http://h/x"]).count (lit "http://h/x") = 2 := by
  refine ⟨by decide, by decide⟩

/-- Claim C2, amended.  Within one run, a URL that produced a FailureRecord
is never fetched again in the same phase: the discovery phase fetches each
URL at most once (its fetch log is exactly the duplicate-free visited
list), and the extraction phase fetches each visited URL exactly once
(its fetch log is exactly the visited list) — so a URL that failed during
discovery is fetched exactly once more (by extraction), and a URL that
failed during extraction is not retried. -/
theorem C2_amended_thm {site : Str → Fetch} {sp : Bool} {root : Str}
    {md mb : Int} {fuel : Nat} {res : CrawlResult}
    (h : crawl_and_scrape site sp root md mb fuel = .ok (some res)) :
    res.discLog = res.visited ∧ res.extLog = res.visited ∧ res.visited.Nodup := by
  obtain ⟨cfg, sf, hcfg, hrun, hres⟩ := crawl_run_spec h
  have hinv : DiscInv sf := discInv_reachable (runDiscovery_reachable hrun)
  subst hres
  exact ⟨hinv.2.1, runExtraction_log sp site sf.visited, hinv.1⟩

/-- Claim C2, witness for the amended theorem, instantiated on the crawl of
`c1site` (one discovery failure is absent there; the run visits two URLs
and fetches each exactly once per phase). -/
theorem C2_amended_witness :
    (⟨[(lit "http://h/x/a", lit "T2")], [lit "http://h/x"],
       [lit "http://h/x", lit "http://h/x/a"],
       [lit "http://h/x", lit "http://h/x/a"],
       [lit "http://h/x", lit "http://h/x/a"]⟩ : CrawlResult).discLog
        = [lit "http://h/x", lit "http://h/x/a"] ∧
    ([lit "http://h/x", lit "http://h/x/a"] : List Str).Nodup := by
  have h := @C2_amended_thm c1site true (lit "http://h/x") 5 20 10
    ⟨[(lit "http://h/x/a", lit "T2")], [lit "http://h/x"],
       [lit "http://h/x", lit "http://h/x/a"],
       [lit "http://h/x", lit "http://h/x/a"],
       [lit "http://h/x", lit "http://h/x/a"]⟩ (by decide)
  exact ⟨h.1, h.2.2⟩

/-- Claim C3: along every crawl, each canonicalized fragment-stripped URL
is added to `visited` at most once (the list is duplicate-free), every URL
fetched for discovery is recorded at the moment it first enters `visited`
(the discovery fetch log equals the visited list, so no URL already in
`visited` is ever re-fetched for discovery), and across any further step
the visited list only grows (the old list is a prefix of the new one), with
any discovery fetch of that step being of a URL not yet visited. -/
theorem C3_no_duplicate_visits (cfg : Cfg) (root : Str) (s : St)
    (h : Reachable cfg root s) :
    s.visited.Nodup ∧ s.fetchLog = s.visited ∧
      ∀ s', Step cfg s s' → s.visited <+: s'.visited ∧
        (s'.fetchLog = s.fetchLog ∨
          ∃ u, u ∉ s.visited ∧ s'.fetchLog = s.fetchLog ++ [u]) := by
  obtain ⟨hnd, hlog, _⟩ := discInv_reachable h
  refine ⟨hnd, hlog, fun s' hst => ⟨visited_prefix_step hst, ?_⟩⟩
  rcases visited_step_eq hst with ⟨_, hl⟩ | ⟨u, hu, _, _, _, hl⟩
  · exact Or.inl hl
  · exact Or.inr ⟨u, hu, hl⟩

/-- Claim C3, witness: the invariant instantiated on the concrete reachable
state after one step of the `c1site` crawl. -/
theorem C3_witness :
    ([lit "http://h/x"] : List Str).Nodup ∧
      ([lit "http://h/x"] : List Str) = [lit "http://h/x"] ∧
      ∀ s', Step c1cfg ⟨[⟨lit "http://h/x/a",
          [lit "http://h/x", lit "http://h/x/a"], 1⟩], [lit "http://h/x"],
          [], 0, [lit "http://h/x"]⟩ s' →
        ([lit "http://h/x"] : List Str) <+: s'.visited ∧
        (s'.fetchLog = [lit "http://h/x"] ∨
          ∃ u, u ∉ ([lit "http://h/x"] : List Str) ∧
            s'.fetchLog = [lit "http://h/x"] ++ [u]) :=
  C3_no_duplicate_visits c1cfg (lit "http://h/x")
    ⟨[⟨lit "http://h/x/a", [lit "http://h/x", lit "http://h/x/a"], 1⟩],
      [lit "http://h/x"], [], 0, [lit "http://h/x"]⟩
    (Relation.ReflTransGen.single (by decide))

/-- Claim C4: whenever the configured `max_depth` is non-negative (the
engine's default is 5), every CrawlTarget on the frontier queue of any
reachable state — hence also every target ever dequeued, every child
created by link discovery, and every target re-inserted by normal or
aggressive backtracking — has depth at most `max_depth`. -/
theorem C4_depth_bound (cfg : Cfg) (root : Str) (s : St)
    (h0 : 0 ≤ cfg.maxDepth) (h : Reachable cfg root s) :
    ∀ tg ∈ s.queue, tg.depth ≤ cfg.maxDepth :=
  depthInv_reachable h0 h

/-- Claim C4, witness: the depth bound instantiated at the initial state of
the `c1site` crawl and its root target. -/
theorem C4_witness :
    (⟨lit "http://h/x", [lit "http://h/x"], 0⟩ : Target).depth ≤ c1cfg.maxDepth :=
  C4_depth_bound c1cfg (lit "http://h/x") (initSt (lit "http://h/x"))
    (by decide) Relation.ReflTransGen.refl
    ⟨lit "http://h/x", [lit "http://h/x"], 0⟩ (List.mem_singleton_self _)

/-- Claim C7, counterexample.  The claim says a candidate whose path ends
with an excluded suffix is always rejected and never enters the visited
set.  The code instead tests the whole fragment-stripped URL string with
`endswith`, so `http://h/x/a.png?q=1` — whose parsed path `/x/a.png` ends
with `.png` — passes the filter and is visited by the `c7site` crawl. -/
theorem C7_counterexample :
    runDiscovery c7cfg 10 (initSt (lit "http://h/x"))
        = .ok (some ⟨[], [lit "http://h/x", lit "http://h/x/a.png?q=1"], [], 1,
            [lit "http://h/x", lit "http://h/x/a.png?q=1"]⟩) ∧
    urlPathOf (lit "http://h/x/a.png?q=1") = some (lit "/x/a.png") ∧
    (lit ".png").isSuffixOf (lit "/x/a.png") = true ∧
    suffixHit (lit "http://h/x/a.png?q=1") = false := by
  refine ⟨by decide, by decide, by decide, by decide⟩

/-- Claim C7, amended.  The walker's suffix filter rejects a candidate iff
its normalized fragment-stripped URL string (not its path) ends with one of
the excluded suffixes (`.rst`, `.png`, `.gif`, `.jpeg`, `.jpg`); the
rejection is tested before the scope test and the visited test, so it
applies regardless of whether the URL matches the scope prefix (the step
just drops the queue head and changes nothing else); and no URL whose
string ends with an excluded suffix ever enters the visited set. -/
theorem C7_amended_thm :
    (∀ u : Str, suffixHit u = true ↔
      ∃ suf ∈ IGNORED_SUFFIXES, suf.isSuffixOf u = true) ∧
    (∀ (cfg : Cfg) (s : St) (t : Target) (rest : List Target) (uwf : Str),
      s.queue = t :: rest → uwfOf t.url = .ok uwf → suffixHit uwf = true →
      step cfg s = .ok (some { s with queue := rest })) ∧
    (∀ (cfg : Cfg) (root : Str) (s : St), Reachable cfg root s →
      ∀ u ∈ s.visited, suffixHit u = false) := by
  refine ⟨?_, fun cfg s t rest uwf hq huwf hsuf => step_skip_suffix_eq hq huwf hsuf,
    fun cfg root s h => (discInv_reachable h).2.2⟩
  intro u
  simp [suffixHit, List.any_eq_true]

/-- Claim C7, witness for the amended theorem: a root ending in `.png` is
dropped in one step even though it matches its own scope pattern, and the
suffix test agrees with membership in `IGNORED_SUFFIXES` on it. -/
theorem C7_amended_witness :
    (suffixHit (lit "http://h/a.png") = true ↔
      ∃ suf ∈ IGNORED_SUFFIXES, suf.isSuffixOf (lit "http://h/a.png") = true) ∧
    step ⟨c2site, lit "http://h/a.png", 5, 20⟩ (initSt (lit "http://h/a.png"))
      = .ok (some ⟨[], [], [], 0, []⟩) ∧
    ([] : List Str) = [] := by
  obtain ⟨h1, h2, h3⟩ := C7_amended_thm
  refine ⟨h1 (lit "http://h/a.png"), ?_, rfl⟩
  exact h2 ⟨c2site, lit "http://h/a.png", 5, 20⟩ (initSt (lit "http://h/a.png"))
    ⟨lit "http://h/a.png", [lit "http://h/a.png"], 0⟩ [] (lit "http://h/a.png")
    rfl (by decide) (by decide)

/-- Claim C9: `drop_duplicates(subset="main_body_text", keep="first")`
keeps exactly the first-seen occurrence of each distinct text: the result
never contains two rows with equal text, it is a subsequence of the input
(later duplicates are dropped, order preserved), every input text is still
represented, and for every text the retained row is precisely the first
input row carrying it; consequently the final Corpus of any completed crawl
never contains two PageResults with identical text. -/
theorem C9_dedup (data : List (Str × Str)) :
    (drop_duplicates_by_text [] data).Pairwise (fun a b => a.2 ≠ b.2) ∧
    (drop_duplicates_by_text [] data).Sublist data ∧
    (∀ T : Str, (drop_duplicates_by_text [] data).find? (fun p => p.2 == T)
        = data.find? (fun p => p.2 == T)) ∧
    (∀ p ∈ data, ∃ q ∈ drop_duplicates_by_text [] data, q.2 = p.2) ∧
    (∀ (site : Str → Fetch) (sp : Bool) (root : Str) (md mb : Int)
        (fuel : Nat) (res : CrawlResult),
      crawl_and_scrape site sp root md mb fuel = .ok (some res) →
        res.corpus.Pairwise (fun a b => a.2 ≠ b.2)) := by
  refine ⟨dd_pairwise [] data, dd_sublist [] data,
    fun T => dd_find? T [] data (List.not_mem_nil T),
    fun p hp => dd_covers hp (List.not_mem_nil p.2),
    fun site sp root md mb fuel res h => ?_⟩
  obtain ⟨cfg, sf, hcfg, hrun, hres⟩ := crawl_run_spec h
  subst hres
  exact dd_pairwise [] _

/-- Claim C10: if the walker's own filters skip the root URL itself — its
normalized fragment-stripped form ends with an excluded suffix, or fails
the scope pattern built from the unnormalized root (as happens, e.g., for a
root with `.` or `..` path segments) — then, for any fuel that lets the
loop run its two iterations, `crawl_and_scrape` returns an empty corpus and
an empty failure list, having visited no URL and fetched nothing. -/
theorem C10_root_skipped (site : Str → Fetch) (sp : Bool) (root : Str)
    (md mb : Int) {pr : ParseResult} {r : Str}
    (hpr : urlparse root [] = .ok pr) (hr : uwfOf root = .ok r)
    (hskip : suffixHit r = true ∨ patMatch (mkPat pr) r = false)
    {fuel : Nat} (hf : 2 ≤ fuel) :
    crawl_and_scrape site sp root md mb fuel = .ok (some ⟨[], [], [], [], []⟩) := by
  obtain ⟨n, rfl⟩ : ∃ n, fuel = n + 2 := ⟨fuel - 2, by omega⟩
  have hcfg : mkCfg site root md mb = .ok ⟨site, mkPat pr, md, mb⟩ := by
    simp only [mkCfg, hpr, bind, Except.bind, Except.instMonad, pure, Except.pure]
  have hstep : step ⟨site, mkPat pr, md, mb⟩ (initSt root)
      = .ok (some ⟨[], [], [], 0, []⟩) := by
    rcases hskip with hsuf | hpm
    · exact step_skip_suffix_eq rfl hr hsuf
    · by_cases hsuf : suffixHit r = true
      · exact step_skip_suffix_eq rfl hr hsuf
      · have hsuf1 : suffixHit r = false := by
          revert hsuf; cases suffixHit r <;> simp
        exact step_skip_scope_eq rfl hr hsuf1 hpm
  have hrun : runDiscovery ⟨site, mkPat pr, md, mb⟩ (n + 2) (initSt root)
      = .ok (some ⟨[], [], [], 0, []⟩) := by
    rw [show n + 2 = (n + 1) + 1 from rfl, runDiscovery_step_cons hstep]
    exact runDiscovery_done rfl
  simp only [crawl_and_scrape, hcfg, hrun, bind, Except.bind, Except.instMonad]
  rfl

/-- Claim C10, witness: the root `http://h/./x` fails its own scope pattern
(built from the unnormalized path `/./x`), so the crawl returns the empty
result. -/
theorem C10_witness :
    crawl_and_scrape c2site true (lit "http://h/./x") 5 20 2
      = .ok (some ⟨[], [], [], [], []⟩) :=
  @C10_root_skipped c2site true (lit "http://h/./x") 5 20
    ⟨lit "http", lit "h", lit "/./x", [], [], []⟩ (lit "http://h/x")
    (by decide) (by decide) (Or.inr (by decide)) 2 (by decide)

/-- Claim C9, witness: the run-level conjunct instantiated on the `c1site`
crawl, whose corpus is the single surviving page. -/
theorem C9_witness :
    (⟨[(lit "http://h/x/a", lit "T2")], [lit "http://h/x"],
       [lit "http://h/x", lit "http://h/x/a"],
       [lit "http://h/x", lit "http://h/x/a"],
       [lit "http://h/x", lit "http://h/x/a"]⟩ : CrawlResult).corpus.Pairwise
      (fun a b => a.2 ≠ b.2) :=
  (C9_dedup []).2.2.2.2 c1site true (lit "http://h/x") 5 20 10
    ⟨[(lit "http://h/x/a", lit "T2")], [lit "http://h/x"],
       [lit "http://h/x", lit "http://h/x/a"],
       [lit "http://h/x", lit "http://h/x/a"],
       [lit "http://h/x", lit "http://h/x/a"]⟩ (by decide)

/-! ## Character-level lemmas -/

theorem char_toNat_ofNat {n : Nat} (h : n.isValidChar) : (Char.ofNat n).toNat = n := by
  unfold Char.ofNat
  rw [dif_pos h]
  unfold Char.ofNatAux Char.toNat
  simp [BitVec.toNat_ofNatLt, UInt32.toNat]

/-- `Char.toLower` cannot produce a character below code point 65 out of a
different character (its only action maps `A`–`Z` into `a`–`z`). -/
theorem toLower_ne_small {c d : Char} (hd : d.toNat < 65) (h : c ≠ d) :
    Char.toLower c ≠ d := by
  unfold Char.toLower
  dsimp only
  split
  · next hb =>
    intro heq
    have h2 := congrArg Char.toNat heq
    rw [char_toNat_ofNat (by left; omega)] at h2
    omega
  · exact h

/-! ## Structural lemmas for the string splitters -/

theorem breakAtChar_eq {c : Char} :
    ∀ {s a b : Str}, breakAtChar c s = some (a, b) → s = a ++ c :: b ∧ c ∉ a := by
  intro s
  induction s with
  | nil => intro a b h; exact Option.noConfusion h
  | cons x xs ih =>
    intro a b h
    unfold breakAtChar at h
    split at h
    · next hx =>
      simp only [Option.some.injEq, Prod.mk.injEq] at h
      rw [← h.1, ← h.2, hx]
      exact ⟨rfl, List.not_mem_nil c⟩
    · next hx =>
      rcases hb : breakAtChar c xs with _ | ⟨a1, b1⟩ <;> rw [hb] at h
      · exact absurd h (by simp)
      · rw [Option.map] at h
        simp only [Option.some.injEq, Prod.mk.injEq] at h
        obtain ⟨h1, h2⟩ := ih hb
        rw [← h.1, ← h.2]
        refine ⟨by rw [h1]; rfl, ?_⟩
        intro hmem
        rcases List.mem_cons.mp hmem with rfl | hmem
        · exact hx rfl
        · exact h2 hmem

theorem breakAtChar_of_not_mem {c : Char} :
    ∀ {s : Str}, c ∉ s → breakAtChar c s = none := by
  intro s
  induction s with
  | nil => intro _; rfl
  | cons x xs ih =>
    intro h
    unfold breakAtChar
    rw [if_neg (by
      intro hx
      exact h (hx ▸ List.mem_cons_self x xs)),
      ih (fun hmem => h (List.mem_cons_of_mem x hmem))]
    rfl

theorem breakAtChar_append {c : Char} :
    ∀ {a : Str}, c ∉ a → ∀ (b : Str), breakAtChar c (a ++ c :: b) = some (a, b) := by
  intro a
  induction a with
  | nil => intro _ b; simp [breakAtChar]
  | cons x xs ih =>
    intro h b
    have hx : ¬ x = c := fun hx => h (hx ▸ List.mem_cons_self x xs)
    simp only [List.cons_append]
    unfold breakAtChar
    rw [if_neg hx, ih (fun hmem => h (List.mem_cons_of_mem x hmem)) b]
    rfl

theorem splitOnChar_ne_nil {c : Char} : ∀ (s : Str), splitOnChar c s ≠ [] := by
  intro s
  induction s with
  | nil => simp [splitOnChar]
  | cons x xs ih =>
    unfold splitOnChar
    split
    · simp
    · dsimp only
      split
      · next hnil => exact absurd hnil ih
      · simp

/-- Characters of the pieces of `splitOnChar` are characters of the input. -/
theorem splitOnChar_mem {c : Char} :
    ∀ {s : Str} {p : Str}, p ∈ splitOnChar c s → ∀ x ∈ p, x ∈ s := by
  intro s
  induction s with
  | nil =>
    intro p hp x hx
    simp only [splitOnChar, List.mem_singleton] at hp
    rw [hp] at hx
    exact absurd hx (List.not_mem_nil x)
  | cons y ys ih =>
    intro p hp x hx
    unfold splitOnChar at hp
    split at hp
    · rcases List.mem_cons.mp hp with rfl | hp
      · exact absurd hx (List.not_mem_nil x)
      · exact List.mem_cons_of_mem _ (ih hp x hx)
    · dsimp only at hp
      split at hp
      · rw [List.mem_singleton.mp hp] at hx
        rw [List.mem_singleton.mp hx]
        exact List.mem_cons_self _ _
      · next h t hr =>
        rcases List.mem_cons.mp hp with rfl | hp
        · rcases List.mem_cons.mp hx with rfl | hx
          · exact List.mem_cons_self _ _
          · exact List.mem_cons_of_mem _ (ih (hr ▸ List.mem_cons_self h t) x hx)
        · exact List.mem_cons_of_mem _ (ih (hr ▸ List.mem_cons_of_mem h hp) x hx)

/-! ## Cleanliness of parse components (no tab, CR or newline) -/

/-- No character of `s` is one of the unsafe bytes `urlsplit` removes. -/
def cleanStr (s : Str) : Prop := ∀ x ∈ s, x ≠ '\t' ∧ x ≠ '\r' ∧ x ≠ '\n'

theorem removeUnsafe_clean (s : Str) : cleanStr (removeUnsafe s) := by
  intro x hx
  obtain ⟨_, hp⟩ := List.mem_filter.mp hx
  revert hp
  simp [removeUnsafe]

theorem cleanStr_of_subset {a b : Str} (h : ∀ x ∈ a, x ∈ b) (hb : cleanStr b) :
    cleanStr a := fun x hx => hb x (h x hx)

theorem strLower_clean {s : Str} (h : cleanStr s) : cleanStr (strLower s) := by
  intro x hx
  obtain ⟨y, hy, rfl⟩ := List.mem_map.mp hx
  obtain ⟨h1, h2, h3⟩ := h y hy
  exact ⟨toLower_ne_small (by decide) h1, toLower_ne_small (by decide) h2,
    toLower_ne_small (by decide) h3⟩

theorem splitAtLastChar_eq {c : Char} {s a b : Str}
    (h : splitAtLastChar c s = some (a, b)) : s = a ++ c :: b ∧ c ∉ b := by
  unfold splitAtLastChar at h
  rcases hb : breakAtChar c s.reverse with _ | ⟨ra, rb⟩ <;> rw [hb] at h
  · exact absurd h (by simp)
  · simp only [Option.some.injEq, Prod.mk.injEq] at h
    obtain ⟨h1, h2⟩ := breakAtChar_eq hb
    constructor
    · rw [← h.1, ← h.2]
      have := congrArg List.reverse h1
      simp only [List.reverse_reverse, List.reverse_append, List.reverse_cons] at this
      rw [this]
      simp
    · rw [← h.2]
      intro hmem
      exact h2 (List.mem_reverse.mp hmem)

/-- Case analysis of the scheme-extraction step. -/
theorem splitScheme_cases (url ds : Str) :
    splitScheme url ds = (ds, url) ∨
    ∃ a b, url = a ++ ':' :: b ∧ ':' ∉ a ∧
      (¬ a.isEmpty ∧ charIsAscii (a.headD ' ') ∧ (a.headD ' ').isAlpha ∧
        a.all isSchemeChar) ∧
      splitScheme url ds = (strLower a, b) := by
  unfold splitScheme
  rcases hb : breakAtChar ':' url with _ | ⟨before, after⟩ <;> simp only [hb]
  · exact Or.inl trivial
  · obtain ⟨h1, h2⟩ := breakAtChar_eq hb
    split
    · next hcond =>
      simp only [Bool.and_eq_true, decide_eq_true_eq] at hcond
      exact Or.inr ⟨before, after, h1, h2,
        ⟨by simpa using hcond.1.1.1, hcond.1.1.2, hcond.1.2, hcond.2⟩, rfl⟩
    · exact Or.inl rfl

/-- The exact values `urlsplit` returns on success. -/
theorem urlsplit_ok_spec {u d : Str} {sr : SplitResult} (h : urlsplit u d = .ok sr) :
    sr = ⟨(splitScheme (removeUnsafe (lstripC0 u)) (removeUnsafe (stripC0 d))).1,
          (netlocStage (splitScheme (removeUnsafe (lstripC0 u)) (removeUnsafe (stripC0 d))).2).1,
          (queryStage (fragStage (netlocStage (splitScheme (removeUnsafe (lstripC0 u)) (removeUnsafe (stripC0 d))).2).2).1).1,
          (queryStage (fragStage (netlocStage (splitScheme (removeUnsafe (lstripC0 u)) (removeUnsafe (stripC0 d))).2).2).1).2,
          (fragStage (netlocStage (splitScheme (removeUnsafe (lstripC0 u)) (removeUnsafe (stripC0 d))).2).2).2⟩ := by
  unfold urlsplit at h
  dsimp only at h
  split at h
  · exact absurd h (by simp)
  · split at h
    · exact absurd h (by simp)
    · simp only [Except.ok.injEq] at h
      exact h.symm

theorem netlocStage_clean {s : Str} (h : cleanStr s) :
    cleanStr (netlocStage s).1 ∧ cleanStr (netlocStage s).2 := by
  unfold netlocStage
  split
  · have hdrop : cleanStr (s.drop 2) :=
      cleanStr_of_subset (fun x hx => (List.drop_sublist _ _).subset hx) h
    unfold splitNetloc
    constructor
    · exact cleanStr_of_subset (fun x hx => (List.takeWhile_sublist _).subset hx) hdrop
    · exact cleanStr_of_subset (fun x hx => (List.drop_sublist _ _).subset hx) hdrop
  · exact ⟨fun x hx => absurd hx (List.not_mem_nil x), h⟩

theorem fragStage_clean {s : Str} (h : cleanStr s) :
    cleanStr (fragStage s).1 ∧ cleanStr (fragStage s).2 := by
  unfold fragStage
  rcases hb : breakAtChar '#' s with _ | ⟨a1, b1⟩
  · exact ⟨h, fun x hx => absurd hx (List.not_mem_nil x)⟩
  · obtain ⟨hdec, _⟩ := breakAtChar_eq hb
    constructor
    · exact cleanStr_of_subset
        (fun x hx => by rw [hdec]; exact List.mem_append_left _ hx) h
    · exact cleanStr_of_subset
        (fun x hx => by rw [hdec]; exact List.mem_append_right _ (List.mem_cons_of_mem _ hx)) h

theorem queryStage_clean {s : Str} (h : cleanStr s) :
    cleanStr (queryStage s).1 ∧ cleanStr (queryStage s).2 := by
  unfold queryStage
  rcases hb : breakAtChar '?' s with _ | ⟨a1, b1⟩
  · exact ⟨h, fun x hx => absurd hx (List.not_mem_nil x)⟩
  · obtain ⟨hdec, _⟩ := breakAtChar_eq hb
    constructor
    · exact cleanStr_of_subset
        (fun x hx => by rw [hdec]; exact List.mem_append_left _ hx) h
    · exact cleanStr_of_subset
        (fun x hx => by rw [hdec]; exact List.mem_append_right _ (List.mem_cons_of_mem _ hx)) h

theorem splitScheme_clean {url ds : Str} (hu : cleanStr url) (hd : cleanStr ds) :
    cleanStr (splitScheme url ds).1 ∧ cleanStr (splitScheme url ds).2 := by
  rcases splitScheme_cases url ds with heq | ⟨a, b, hdec, _, _, heq⟩
  · rw [heq]; exact ⟨hd, hu⟩
  · rw [heq]
    constructor
    · exact strLower_clean (cleanStr_of_subset
        (fun x hx => by rw [hdec]; exact List.mem_append_left _ hx) hu)
    · exact cleanStr_of_subset
        (fun x hx => by rw [hdec]; exact List.mem_append_right _ (List.mem_cons_of_mem _ hx)) hu

theorem urlsplit_clean {u d : Str} {sr : SplitResult} (h : urlsplit u d = .ok sr) :
    cleanStr sr.scheme ∧ cleanStr sr.netloc ∧ cleanStr sr.path ∧
      cleanStr sr.query ∧ cleanStr sr.fragment := by
  have hspec := urlsplit_ok_spec h
  have hs1 := splitScheme_clean (removeUnsafe_clean (lstripC0 u)) (removeUnsafe_clean (stripC0 d))
  have hn1 := netlocStage_clean hs1.2
  have hf1 := fragStage_clean hn1.2
  have hq1 := queryStage_clean hf1.1
  rw [hspec]
  exact ⟨hs1.1, hn1.1, hq1.1, hq1.2, hf1.2⟩

/-- Characters of both halves of `splitparams` come from the input. -/
theorem splitparams_mem (s : Str) :
    (∀ x ∈ (splitparams s).1, x ∈ s) ∧ (∀ x ∈ (splitparams s).2, x ∈ s) := by
  unfold splitparams
  rcases hl : splitAtLastChar '/' s with _ | ⟨before, after⟩ <;> dsimp only
  · rcases hb : breakAtChar ';' s with _ | ⟨a1, a2⟩ <;> dsimp only
    · exact ⟨fun x hx => hx, fun x hx => absurd hx (List.not_mem_nil x)⟩
    · obtain ⟨hdec, _⟩ := breakAtChar_eq hb
      constructor
      · exact fun x hx => by rw [hdec]; exact List.mem_append_left _ hx
      · exact fun x hx => by rw [hdec]; exact List.mem_append_right _ (List.mem_cons_of_mem _ hx)
  · obtain ⟨hdec1, _⟩ := splitAtLastChar_eq hl
    rcases hb : breakAtChar ';' after with _ | ⟨a1, a2⟩ <;> dsimp only
    · exact ⟨fun x hx => hx, fun x hx => absurd hx (List.not_mem_nil x)⟩
    · obtain ⟨hdec2, _⟩ := breakAtChar_eq hb
      constructor
      · intro x hx
        rw [hdec1, hdec2]
        rcases List.mem_append.mp hx with hx | hx
        · exact List.mem_append_left _ hx
        · rcases List.mem_cons.mp hx with rfl | hx
          · exact List.mem_append_right _ (List.mem_cons_self _ _)
          · exact List.mem_append_right _ (List.mem_cons_of_mem _ (List.mem_append_left _ hx))
      · intro x hx
        rw [hdec1, hdec2]
        exact List.mem_append_right _ (List.mem_cons_of_mem _
          (List.mem_append_right _ (List.mem_cons_of_mem _ hx)))

theorem urlparse_ok_split {u d : Str} {pr : ParseResult} (h : urlparse u d = .ok pr) :
    ∃ sr : SplitResult, urlsplit u d = .ok sr ∧
      pr.scheme = sr.scheme ∧ pr.netloc = sr.netloc ∧
      pr.query = sr.query ∧ pr.fragment = sr.fragment ∧
      (((sr.scheme ∈ uses_params ∧ strContains [';'] sr.path = true) ∧
          pr.path = (splitparams sr.path).1 ∧
          pr.params = (splitparams sr.path).2) ∨
       (¬ (sr.scheme ∈ uses_params ∧ strContains [';'] sr.path = true) ∧
          pr.path = sr.path ∧ pr.params = [])) := by
  unfold urlparse at h
  rcases hs : urlsplit u d with e | sr <;> rw [hs] at h <;>
    simp only [bind, Except.bind, Except.instMonad] at h
  · exact absurd h (by simp)
  · refine ⟨sr, rfl, ?_⟩
    by_cases hsc : sr.scheme ∈ uses_params ∧ strContains [';'] sr.path = true
    · rw [if_pos hsc] at h
      simp only [pure, Except.pure, Except.ok.injEq] at h
      rw [← h]
      exact ⟨rfl, rfl, rfl, rfl, Or.inl ⟨hsc, rfl, rfl⟩⟩
    · rw [if_neg hsc] at h
      simp only [pure, Except.pure, Except.ok.injEq] at h
      rw [← h]
      exact ⟨rfl, rfl, rfl, rfl, Or.inr ⟨hsc, rfl, rfl⟩⟩

theorem urlparse_clean {u d : Str} {pr : ParseResult} (h : urlparse u d = .ok pr) :
    cleanStr pr.scheme ∧ cleanStr pr.netloc ∧ cleanStr pr.path ∧
      cleanStr pr.params ∧ cleanStr pr.query ∧ cleanStr pr.fragment := by
  obtain ⟨sr, hs, h1, h2, h3, h4, h5⟩ := urlparse_ok_split h
  obtain ⟨c1, c2, c3, c4, c5⟩ := urlsplit_clean hs
  rw [h1, h2, h3, h4]
  refine ⟨c1, c2, ?_, ?_, c4, c5⟩
  · rcases h5 with ⟨_, hp, _⟩ | ⟨_, hp, _⟩ <;> rw [hp]
    · exact cleanStr_of_subset (splitparams_mem sr.path).1 c3
    · exact c3
  · rcases h5 with ⟨_, _, hq⟩ | ⟨_, _, hq⟩ <;> rw [hq]
    · exact cleanStr_of_subset (splitparams_mem sr.path).2 c3
    · exact fun x hx => absurd hx (List.not_mem_nil x)

/-- Membership in an if-then-else of lists. -/
theorem mem_ite {c : Prop} [Decidable c] {a b : Str} {x : Char}
    (h : x ∈ (if c then a else b)) : x ∈ a ∨ x ∈ b := by
  split at h
  · exact Or.inl h
  · exact Or.inr h

/-- Every character of `urlunsplit`'s output comes from a component or is
one of the literal separators. -/
theorem urlunsplit_mem {scheme netloc url query fragment : Str} :
    ∀ x ∈ urlunsplit scheme netloc url query fragment,
      x ∈ scheme ∨ x ∈ netloc ∨ x ∈ url ∨ x ∈ query ∨ x ∈ fragment ∨
        x = ':' ∨ x = '/' ∨ x = '?' ∨ x = '#' := by
  intro x hx
  unfold urlunsplit at hx
  dsimp only at hx
  set u1 := if ¬ netloc.isEmpty = true ∨
      (¬ scheme.isEmpty = true ∧ scheme ∈ uses_netloc ∧ url.take 2 ≠ ['/', '/']) then
      ('/' :: '/' :: netloc) ++ (if ¬ url.isEmpty = true ∧ url.take 1 ≠ ['/'] then '/' :: url else url)
    else url with hu1
  have hm1 : ∀ y ∈ u1, y ∈ netloc ∨ y ∈ url ∨ y = '/' := by
    intro y hy
    rw [hu1] at hy
    rcases mem_ite hy with hy | hy
    · rcases List.mem_append.mp hy with hy | hy
      · rcases List.mem_cons.mp hy with rfl | hy
        · exact Or.inr (Or.inr rfl)
        · rcases List.mem_cons.mp hy with rfl | hy
          · exact Or.inr (Or.inr rfl)
          · exact Or.inl hy
      · rcases mem_ite hy with hy | hy
        · rcases List.mem_cons.mp hy with rfl | hy
          · exact Or.inr (Or.inr rfl)
          · exact Or.inr (Or.inl hy)
        · exact Or.inr (Or.inl hy)
    · exact Or.inr (Or.inl hy)
  set u2 := if ¬ scheme.isEmpty = true then scheme ++ ':' :: u1 else u1 with hu2
  have hm2 : ∀ y ∈ u2, y ∈ scheme ∨ y = ':' ∨ y ∈ u1 := by
    intro y hy
    rw [hu2] at hy
    rcases mem_ite hy with hy | hy
    · rcases List.mem_append.mp hy with hy | hy
      · exact Or.inl hy
      · rcases List.mem_cons.mp hy with rfl | hy
        · exact Or.inr (Or.inl rfl)
        · exact Or.inr (Or.inr hy)
    · exact Or.inr (Or.inr hy)
  set u3 := if ¬ query.isEmpty = true then u2 ++ '?' :: query else u2 with hu3
  have hm3 : ∀ y ∈ u3, y ∈ query ∨ y = '?' ∨ y ∈ u2 := by
    intro y hy
    rw [hu3] at hy
    rcases mem_ite hy with hy | hy
    · rcases List.mem_append.mp hy with hy | hy
      · exact Or.inr (Or.inr hy)
      · rcases List.mem_cons.mp hy with rfl | hy
        · exact Or.inr (Or.inl rfl)
        · exact Or.inl hy
    · exact Or.inr (Or.inr hy)
  have hfin : x ∈ fragment ∨ x = '#' ∨ x ∈ u3 := by
    rcases mem_ite hx with hy | hy
    · rcases List.mem_append.mp hy with hy | hy
      · exact Or.inr (Or.inr hy)
      · rcases List.mem_cons.mp hy with rfl | hy
        · exact Or.inr (Or.inl rfl)
        · exact Or.inl hy
    · exact Or.inr (Or.inr hy)
  rcases hfin with h | h | h
  · tauto
  · tauto
  · rcases hm3 x h with h | h | h
    · tauto
    · tauto
    · rcases hm2 x h with h | h | h
      · tauto
      · tauto
      · rcases hm1 x h with h | h | h <;> tauto

theorem urlunparse_mem (pr : ParseResult) :
    ∀ x ∈ urlunparse pr,
      x ∈ pr.scheme ∨ x ∈ pr.netloc ∨ x ∈ pr.path ∨ x ∈ pr.params ∨
        x ∈ pr.query ∨ x ∈ pr.fragment ∨
        x = ':' ∨ x = '/' ∨ x = '?' ∨ x = '#' ∨ x = ';' := by
  intro x hx
  unfold urlunparse at hx
  dsimp only at hx
  split at hx
  · rcases urlunsplit_mem x hx with h | h | h | h | h | h | h | h | h
    · tauto
    · tauto
    · rcases List.mem_append.mp h with h | h
      · tauto
      · rcases List.mem_cons.mp h with rfl | h <;> tauto
    · tauto
    · tauto
    · tauto
    · tauto
    · tauto
    · tauto
  · rcases urlunsplit_mem x hx with h | h | h | h | h | h | h | h | h <;> tauto

theorem strJoin_mem {sep : Char} :
    ∀ {parts : List Str} {x : Char}, x ∈ strJoin sep parts →
      x = sep ∨ ∃ p ∈ parts, x ∈ p := by
  intro parts
  induction parts with
  | nil => intro x hx; exact absurd hx (List.not_mem_nil x)
  | cons p ps ih =>
    intro x hx
    match ps with
    | [] => exact Or.inr ⟨p, List.mem_cons_self _ _, hx⟩
    | q :: qs =>
      have hx1 : x ∈ p ++ sep :: strJoin sep (q :: qs) := hx
      rcases List.mem_append.mp hx1 with hx2 | hx2
      · exact Or.inr ⟨p, List.mem_cons_self _ _, hx2⟩
      · rcases List.mem_cons.mp hx2 with rfl | hx2
        · exact Or.inl rfl
        · rcases ih hx2 with h | ⟨r, hr, hxr⟩
          · exact Or.inl h
          · exact Or.inr ⟨r, List.mem_cons_of_mem _ hr, hxr⟩

theorem collapse_mem :
    ∀ {segs : List Str} {acc : List Str} {p : Str},
      p ∈ segs.foldl collapseStep acc → p ∈ acc ∨ p ∈ segs := by
  intro segs
  induction segs with
  | nil => intro acc p hp; exact Or.inl hp
  | cons seg segs ih =>
    intro acc p hp
    rw [List.foldl] at hp
    rcases ih hp with hp | hp
    · unfold collapseStep at hp
      split at hp
      · exact Or.inl hp
      · split at hp
        · exact Or.inl ((List.dropLast_sublist acc).subset hp)
        · rcases List.mem_append.mp hp with hp | hp
          · exact Or.inl hp
          · rw [List.mem_singleton.mp hp]
            exact Or.inr (List.mem_cons_self _ _)
    · exact Or.inr (List.mem_cons_of_mem _ hp)

theorem normalize_clean {u v : Str} (h : normalize_url u = .ok v) : cleanStr v := by
  unfold normalize_url at h
  rcases hp : urlparse u [] with e | pr <;> rw [hp] at h <;>
    simp only [bind, Except.bind, Except.instMonad] at h
  · exact absurd h (by simp)
  · simp only [pure, Except.pure, Except.ok.injEq] at h
    obtain ⟨c1, c2, c3, c4, c5, c6⟩ := urlparse_clean hp
    rw [← h]
    intro x hx
    rcases urlunparse_mem _ x hx with hm | hm | hm | hm | hm | hm | hm | hm | hm | hm | hm
    · exact c1 x hm
    · exact c2 x hm
    · rcases strJoin_mem hm with rfl | ⟨p, hp1, hp2⟩
      · exact ⟨by decide, by decide, by decide⟩
      · rcases collapse_mem hp1 with hp1 | hp1
        · exact absurd hp1 (List.not_mem_nil p)
        · exact c3 x (splitOnChar_mem hp1 x hp2)
    · exact c4 x hm
    · exact c5 x hm
    · exact absurd hm (List.not_mem_nil x)
    all_goals (rw [hm]; exact ⟨by decide, by decide, by decide⟩)

theorem stripFrag_clean {pr : ParseResult}
    (h : cleanStr pr.scheme ∧ cleanStr pr.netloc ∧ cleanStr pr.path ∧
      cleanStr pr.params ∧ cleanStr pr.query ∧ cleanStr pr.fragment) :
    cleanStr (stripFrag pr) := by
  obtain ⟨c1, c2, c3, c4, c5, c6⟩ := h
  intro x hx
  rcases urlunparse_mem _ x hx with hm | hm | hm | hm | hm | hm | hm | hm | hm | hm | hm
  · exact c1 x hm
  · exact c2 x hm
  · exact c3 x hm
  · exact c4 x hm
  · exact c5 x hm
  · exact absurd hm (List.not_mem_nil x)
  all_goals (rw [hm]; exact ⟨by decide, by decide, by decide⟩)

theorem uwfOf_clean {u v : Str} (h : uwfOf u = .ok v) : cleanStr v := by
  unfold uwfOf at h
  rcases hn : normalize_url u with e | n <;> rw [hn] at h <;>
    simp only [bind, Except.bind, Except.instMonad] at h
  · exact absurd h (by simp)
  · rcases hp : urlparse n [] with e | pr <;> rw [hp] at h <;>
      simp only [bind, Except.bind, Except.instMonad] at h
    · exact absurd h (by simp)
    · simp only [pure, Except.pure, Except.ok.injEq] at h
      rw [← h]
      have hc := urlparse_clean hp
      exact stripFrag_clean ⟨hc.1, hc.2.1, hc.2.2.1, hc.2.2.2.1, hc.2.2.2.2.1,
        hc.2.2.2.2.2⟩

/-! ## Character classes and lowercasing, for the `normalize_url` reparse -/

theorem isUpper_iff {c : Char} : c.isUpper = true ↔ (65 ≤ c.toNat ∧ c.toNat ≤ 90) := by
  simp only [Char.isUpper, Bool.and_eq_true, decide_eq_true_eq]
  exact Iff.rfl

theorem isAlpha_iff {c : Char} :
    c.isAlpha = true ↔
      ((65 ≤ c.toNat ∧ c.toNat ≤ 90) ∨ (97 ≤ c.toNat ∧ c.toNat ≤ 122)) := by
  simp only [Char.isAlpha, Char.isUpper, Char.isLower, Bool.or_eq_true,
    Bool.and_eq_true, decide_eq_true_eq]
  exact Iff.rfl

theorem isDigit_iff {c : Char} : c.isDigit = true ↔ (48 ≤ c.toNat ∧ c.toNat ≤ 57) := by
  simp only [Char.isDigit, Bool.and_eq_true, decide_eq_true_eq]
  exact Iff.rfl

/-- `Char.toLower` either shifts an upper-case letter down by 32 or leaves
the character unchanged. -/
theorem toLower_cases (c : Char) :
    (65 ≤ c.toNat ∧ c.toNat ≤ 90 ∧ (Char.toLower c).toNat = c.toNat + 32) ∨
      (¬ (65 ≤ c.toNat ∧ c.toNat ≤ 90) ∧ Char.toLower c = c) := by
  unfold Char.toLower
  dsimp only
  split
  · next hb => exact Or.inl ⟨hb.1, hb.2, char_toNat_ofNat (by left; omega)⟩
  · next hb => exact Or.inr ⟨hb, rfl⟩

theorem toLower_toLower (c : Char) :
    Char.toLower (Char.toLower c) = Char.toLower c := by
  rcases toLower_cases c with ⟨_, _, h3⟩ | ⟨_, h2⟩
  · rcases toLower_cases (Char.toLower c) with ⟨_, h5, _⟩ | ⟨_, h5⟩
    · omega
    · exact h5
  · rw [h2, h2]

theorem strLower_idem (s : Str) : strLower (strLower s) = strLower s := by
  unfold strLower
  rw [List.map_map]
  exact List.map_congr_left (fun a _ => toLower_toLower a)

theorem toLower_isAlpha {c : Char} (h : c.isAlpha = true) :
    (Char.toLower c).isAlpha = true := by
  rcases toLower_cases c with ⟨h1, h2, h3⟩ | ⟨_, h2⟩
  · rw [isAlpha_iff, h3]; omega
  · rw [h2]; exact h

theorem toLower_ascii {c : Char} (h : charIsAscii c = true) :
    charIsAscii (Char.toLower c) = true := by
  rcases toLower_cases c with ⟨_, h2, h3⟩ | ⟨_, h2⟩
  · simp only [charIsAscii, decide_eq_true_eq] at h ⊢
    omega
  · rw [h2]; exact h

theorem toLower_schemeChar {c : Char} (h : isSchemeChar c = true) :
    isSchemeChar (Char.toLower c) = true := by
  rcases toLower_cases c with ⟨h1, h2, h3⟩ | ⟨_, h2⟩
  · have : (Char.toLower c).isAlpha = true := by rw [isAlpha_iff, h3]; omega
    simp only [isSchemeChar, this, Bool.true_or, Bool.or_eq_true]
  · rw [h2]; exact h

/-! ## Further splitter lemmas, for the `normalize_url` reparse -/

theorem strContains_single {c : Char} : ∀ {s : Str}, strContains [c] s = true ↔ c ∈ s := by
  intro s
  induction s with
  | nil => simp [strContains, List.isPrefixOf]
  | cons x xs ih =>
    unfold strContains
    simp only [List.isPrefixOf, Bool.and_true, Bool.or_eq_true, beq_iff_eq, ih,
      List.mem_cons]

theorem breakAtChar_none_not_mem {c : Char} :
    ∀ {s : Str}, breakAtChar c s = none → c ∉ s := by
  intro s
  induction s with
  | nil => intro _ h; exact List.not_mem_nil c h
  | cons x xs ih =>
    intro h hmem
    unfold breakAtChar at h
    split at h
    · exact Option.noConfusion h
    · next hx =>
      rcases List.mem_cons.mp hmem with rfl | hmem2
      · exact hx rfl
      · rcases ho : breakAtChar c xs with _ | ab
        · exact ih ho hmem2
        · rw [ho] at h
          exact Option.noConfusion h

theorem takeWhile_append_all {p : Char → Bool} :
    ∀ {a : Str} (b : Str), (∀ x ∈ a, p x = true) →
      (a ++ b).takeWhile p = a ++ b.takeWhile p := by
  intro a
  induction a with
  | nil => intro b _; rfl
  | cons x xs ih =>
    intro b h
    rw [List.cons_append, List.takeWhile_cons_of_pos (h x (List.mem_cons_self x xs)),
      ih b (fun y hy => h y (List.mem_cons_of_mem x hy)), List.cons_append]

theorem splitOnChar_not_mem_sep {c : Char} :
    ∀ {s p : Str}, p ∈ splitOnChar c s → c ∉ p := by
  intro s
  induction s with
  | nil =>
    intro p hp
    simp only [splitOnChar, List.mem_singleton] at hp
    rw [hp]
    exact List.not_mem_nil c
  | cons x xs ih =>
    intro p hp
    unfold splitOnChar at hp
    split at hp
    · next hx =>
      rcases List.mem_cons.mp hp with rfl | hp2
      · exact List.not_mem_nil c
      · exact ih hp2
    · next hx =>
      rcases hr : splitOnChar c xs with _ | ⟨h0, t0⟩
      · exact absurd hr (splitOnChar_ne_nil xs)
      · rw [hr] at hp
        dsimp only at hp
        have hh0 : h0 ∈ splitOnChar c xs := by
          rw [hr]
          exact List.mem_cons_self h0 t0
        rcases List.mem_cons.mp hp with rfl | hp2
        · intro hmem
          rcases List.mem_cons.mp hmem with rfl | hmem2
          · exact hx rfl
          · exact ih hh0 hmem2
        · refine ih ?_
          rw [hr]
          exact List.mem_cons_of_mem h0 hp2

theorem splitOnChar_single {c : Char} :
    ∀ {s : Str}, c ∉ s → splitOnChar c s = [s] := by
  intro s
  induction s with
  | nil => intro _; rfl
  | cons x xs ih =>
    intro h
    have hx : ¬ x = c := fun hx => h (hx ▸ List.mem_cons_self x xs)
    have h2 := ih (fun hmem => h (List.mem_cons_of_mem x hmem))
    simp [splitOnChar, hx, h2]

theorem splitOnChar_append {c : Char} :
    ∀ {a : Str} (b : Str), c ∉ a →
      splitOnChar c (a ++ c :: b) = a :: splitOnChar c b := by
  intro a
  induction a with
  | nil =>
    intro b _
    rw [List.nil_append]
    simp [splitOnChar]
  | cons x xs ih =>
    intro b h
    have hx : ¬ x = c := fun hx => h (hx ▸ List.mem_cons_self x xs)
    have h2 := ih b (fun hmem => h (List.mem_cons_of_mem x hmem))
    rw [List.cons_append]
    simp [splitOnChar, hx, h2]

theorem splitOnChar_strJoin {c : Char} :
    ∀ {parts : List Str}, parts ≠ [] → (∀ p ∈ parts, c ∉ p) →
      splitOnChar c (strJoin c parts) = parts := by
  intro parts
  induction parts with
  | nil => intro h _; exact absurd rfl h
  | cons p ps ih =>
    intro _ h
    match ps with
    | [] => exact splitOnChar_single (h p (List.mem_cons_self p []))
    | q :: qs =>
      show splitOnChar c (p ++ c :: strJoin c (q :: qs)) = _
      rw [splitOnChar_append _ (h p (List.mem_cons_self _ _)),
        ih (by simp) (fun r hr => h r (List.mem_cons_of_mem p hr))]

/-- A segment the collapse loop leaves untouched. -/
def goodSeg (p : Str) : Prop := p ≠ [] ∧ p ≠ ['.'] ∧ p ≠ ['.', '.']

theorem collapse_good :
    ∀ {segs acc : List Str}, (∀ p ∈ acc, goodSeg p) →
      ∀ p ∈ segs.foldl collapseStep acc, goodSeg p := by
  intro segs
  induction segs with
  | nil => intro acc h; exact h
  | cons s ss ih =>
    intro acc h
    rw [List.foldl]
    refine ih ?_
    intro p hp
    unfold collapseStep at hp
    split at hp
    · exact h p hp
    · next h1 =>
      split at hp
      · exact h p ((List.dropLast_sublist acc).subset hp)
      · next h2 =>
        rcases List.mem_append.mp hp with hp2 | hp2
        · exact h p hp2
        · rw [List.mem_singleton.mp hp2]
          exact ⟨fun he => h1 (Or.inr he), fun he => h1 (Or.inl he), h2⟩

theorem collapse_fixed :
    ∀ {segs acc : List Str}, (∀ p ∈ segs, goodSeg p) →
      segs.foldl collapseStep acc = acc ++ segs := by
  intro segs
  induction segs with
  | nil => intro acc _; rw [List.foldl, List.append_nil]
  | cons s ss ih =>
    intro acc h
    obtain ⟨h1, h2, h3⟩ := h s (List.mem_cons_self s ss)
    have hstep : collapseStep acc s = acc ++ [s] := by
      unfold collapseStep
      rw [if_neg (by rintro (he | he) <;> [exact h2 he; exact h1 he]), if_neg h3]
    rw [List.foldl, hstep, ih (fun p hp => h p (List.mem_cons_of_mem s hp)),
      List.append_assoc]
    rfl

theorem strJoin_head {sep : Char} {p : Str} {ps : List Str} (h : p ≠ []) :
    (strJoin sep (p :: ps)).head? = p.head? := by
  match ps with
  | [] => rfl
  | q :: qs =>
    show (p ++ sep :: strJoin sep (q :: qs)).head? = _
    rcases p with _ | ⟨a, as⟩
    · exact absurd rfl h
    · rfl

/-! ## Post-conditions of a successful `urlsplit`/`urlparse` -/

theorem fragStage_fst_no_hash (r : Str) : ('#' : Char) ∉ (fragStage r).1 := by
  unfold fragStage
  rcases hb : breakAtChar '#' r with _ | ⟨a, b⟩ <;> dsimp only
  · exact breakAtChar_none_not_mem hb
  · exact (breakAtChar_eq hb).2

theorem queryStage_fst_no_q (r : Str) : ('?' : Char) ∉ (queryStage r).1 := by
  unfold queryStage
  rcases hb : breakAtChar '?' r with _ | ⟨a, b⟩ <;> dsimp only
  · exact breakAtChar_none_not_mem hb
  · exact (breakAtChar_eq hb).2

theorem queryStage_sub (r : Str) :
    (∀ x ∈ (queryStage r).1, x ∈ r) ∧ (∀ x ∈ (queryStage r).2, x ∈ r) := by
  unfold queryStage
  rcases hb : breakAtChar '?' r with _ | ⟨a, b⟩ <;> dsimp only
  · exact ⟨fun x hx => hx, fun x hx => absurd hx (List.not_mem_nil x)⟩
  · obtain ⟨hdec, _⟩ := breakAtChar_eq hb
    constructor
    · intro x hx
      rw [hdec]
      exact List.mem_append_left _ hx
    · intro x hx
      rw [hdec]
      exact List.mem_append_right _ (List.mem_cons_of_mem _ hx)

theorem netlocStage_fst_mem (r : Str) :
    ∀ x ∈ (netlocStage r).1, ¬ (x = '/' ∨ x = '?' ∨ x = '#') := by
  unfold netlocStage
  split <;> intro x hx
  · unfold splitNetloc at hx
    dsimp only at hx
    have := List.mem_takeWhile_imp hx
    simpa using this
  · exact absurd hx (List.not_mem_nil x)

theorem splitScheme_fst_spec {url s r : Str} (h : splitScheme url [] = (s, r))
    (hne : s ≠ []) :
    ∃ b : Str, s = strLower b ∧ ¬ b.isEmpty = true ∧
      charIsAscii (b.headD ' ') = true ∧ (b.headD ' ').isAlpha = true ∧
      b.all isSchemeChar = true ∧ url = b ++ ':' :: r := by
  unfold splitScheme at h
  rcases hb : breakAtChar ':' url with _ | ⟨before, after⟩ <;> rw [hb] at h
  · injection h with h1 h2
    exact absurd h1.symm hne
  · dsimp only at h
    split at h
    · next hcond =>
      injection h with h1 h2
      simp only [Bool.and_eq_true, decide_eq_true_eq] at hcond
      obtain ⟨⟨⟨hne2, hasc⟩, halpha⟩, hall⟩ := hcond
      obtain ⟨hdec, hnc⟩ := breakAtChar_eq hb
      exact ⟨before, h1.symm, hne2, hasc, halpha, hall, by rw [hdec, h2]⟩
    · injection h with h1 h2
      exact absurd h1.symm hne

theorem splitScheme_fst_props {url s r : Str} (h : splitScheme url [] = (s, r))
    (hne : s ≠ []) :
    charIsAscii (s.headD ' ') = true ∧ (s.headD ' ').isAlpha = true ∧
      s.all isSchemeChar = true ∧ strLower s = s := by
  obtain ⟨b, rfl, hbne, hasc, halpha, hall, _⟩ := splitScheme_fst_spec h hne
  refine ⟨?_, ?_, ?_, strLower_idem b⟩
  · rcases b with _ | ⟨a, as⟩
    · exact absurd rfl hbne
    · exact toLower_ascii hasc
  · rcases b with _ | ⟨a, as⟩
    · exact absurd rfl hbne
    · exact toLower_isAlpha halpha
  · rw [List.all_eq_true] at hall ⊢
    intro x hx
    obtain ⟨y, hy, rfl⟩ := List.mem_map.mp hx
    exact toLower_schemeChar (hall y hy)

theorem urlsplit_post {u : Str} {sr : SplitResult} (h : urlsplit u [] = .ok sr) :
    (sr.scheme ≠ [] → charIsAscii (sr.scheme.headD ' ') = true ∧
      (sr.scheme.headD ' ').isAlpha = true ∧ sr.scheme.all isSchemeChar = true ∧
      strLower sr.scheme = sr.scheme) ∧
    (∀ x ∈ sr.netloc, ¬ (x = '/' ∨ x = '?' ∨ x = '#')) ∧
    ¬ ((strContains ['['] sr.netloc ∧ ¬ strContains [']'] sr.netloc) ∨
       (strContains [']'] sr.netloc ∧ ¬ strContains ['['] sr.netloc)) ∧
    ¬ (strContains ['['] sr.netloc ∧ strContains [']'] sr.netloc ∧
       ¬ bracketedHostOK (bracketedHost sr.netloc)) ∧
    ('#' : Char) ∉ sr.path ∧ ('?' : Char) ∉ sr.path ∧ ('#' : Char) ∉ sr.query := by
  have hds : removeUnsafe (stripC0 ([] : Str)) = [] := rfl
  unfold urlsplit at h
  rw [hds] at h
  dsimp only at h
  split at h
  · exact absurd h (by simp)
  · next hc1 =>
    split at h
    · exact absurd h (by simp)
    · next hc2 =>
      simp only [Except.ok.injEq] at h
      subst h
      rcases hsp : splitScheme (removeUnsafe (lstripC0 u)) [] with ⟨s, r0⟩
      rcases hnl : netlocStage r0 with ⟨n, r1⟩
      rcases hfr : fragStage r1 with ⟨p1, fr⟩
      rcases hqs : queryStage p1 with ⟨pa, qu⟩
      rw [hsp] at hc1 hc2
      dsimp only at hc1 hc2
      rw [hnl] at hc1 hc2
      dsimp only at hc1 hc2
      simp only [hsp, hnl, hfr, hqs]
      refine ⟨fun hne => ?_, ?_, hc1, hc2, ?_, ?_, ?_⟩
      · exact splitScheme_fst_props hsp hne
      · have := netlocStage_fst_mem r0
        rw [hnl] at this
        exact this
      · intro hmem
        have hq1 := (queryStage_sub p1).1
        rw [hqs] at hq1
        have := fragStage_fst_no_hash r1
        rw [hfr] at this
        exact this (hq1 _ hmem)
      · intro hmem
        have := queryStage_fst_no_q p1
        rw [hqs] at this
        exact this hmem
      · intro hmem
        have hq2 := (queryStage_sub p1).2
        rw [hqs] at hq2
        have := fragStage_fst_no_hash r1
        rw [hfr] at this
        exact this (hq2 _ hmem)

theorem urlparse_post {u : Str} {pr : ParseResult} (h : urlparse u [] = .ok pr) :
    (pr.scheme ≠ [] → charIsAscii (pr.scheme.headD ' ') = true ∧
      (pr.scheme.headD ' ').isAlpha = true ∧ pr.scheme.all isSchemeChar = true ∧
      strLower pr.scheme = pr.scheme) ∧
    (∀ x ∈ pr.netloc, ¬ (x = '/' ∨ x = '?' ∨ x = '#')) ∧
    ¬ ((strContains ['['] pr.netloc ∧ ¬ strContains [']'] pr.netloc) ∨
       (strContains [']'] pr.netloc ∧ ¬ strContains ['['] pr.netloc)) ∧
    ¬ (strContains ['['] pr.netloc ∧ strContains [']'] pr.netloc ∧
       ¬ bracketedHostOK (bracketedHost pr.netloc)) ∧
    ('#' : Char) ∉ pr.path ∧ ('?' : Char) ∉ pr.path ∧
    ('#' : Char) ∉ pr.params ∧ ('?' : Char) ∉ pr.params ∧
    ('#' : Char) ∉ pr.query := by
  obtain ⟨sr, hs, hsch, hnet, hq, hfrag, hsplit⟩ := urlparse_ok_split h
  obtain ⟨p1, p2, p3, p4, p5, p6, p7⟩ := urlsplit_post hs
  have hpath : ∀ x ∈ pr.path, x ∈ sr.path := by
    rcases hsplit with ⟨_, hp, _⟩ | ⟨_, hp, _⟩
    · rw [hp]
      exact (splitparams_mem sr.path).1
    · rw [hp]
      exact fun x hx => hx
  have hparams : ∀ x ∈ pr.params, x ∈ sr.path := by
    rcases hsplit with ⟨_, _, hp⟩ | ⟨_, _, hp⟩
    · rw [hp]
      exact (splitparams_mem sr.path).2
    · rw [hp]
      exact fun x hx => absurd hx (List.not_mem_nil x)
  rw [hsch, hnet, hq]
  exact ⟨p1, p2, p3, p4,
    fun hm => p5 (hpath _ hm), fun hm => p6 (hpath _ hm),
    fun hm => p5 (hparams _ hm), fun hm => p6 (hparams _ hm), p7⟩

/-- `urlunsplit` with an empty fragment never emits `'#'`: every character
comes from a component or is `':'`, `'/'` or `'?'`. -/
theorem urlunsplit_mem_nofrag {scheme netloc url query : Str} :
    ∀ x ∈ urlunsplit scheme netloc url query [],
      x ∈ scheme ∨ x ∈ netloc ∨ x ∈ url ∨ x ∈ query ∨
        x = ':' ∨ x = '/' ∨ x = '?' := by
  intro x hx
  unfold urlunsplit at hx
  dsimp only at hx
  rw [if_neg (fun hc : ¬ (List.isEmpty ([] : Str) = true) => hc rfl)] at hx
  set u1 := if ¬ netloc.isEmpty = true ∨
      (¬ scheme.isEmpty = true ∧ scheme ∈ uses_netloc ∧ url.take 2 ≠ ['/', '/']) then
      ('/' :: '/' :: netloc) ++ (if ¬ url.isEmpty = true ∧ url.take 1 ≠ ['/'] then '/' :: url else url)
    else url with hu1
  have hm1 : ∀ y ∈ u1, y ∈ netloc ∨ y ∈ url ∨ y = '/' := by
    intro y hy
    rw [hu1] at hy
    rcases mem_ite hy with hy | hy
    · rcases List.mem_append.mp hy with hy | hy
      · rcases List.mem_cons.mp hy with rfl | hy
        · exact Or.inr (Or.inr rfl)
        · rcases List.mem_cons.mp hy with rfl | hy
          · exact Or.inr (Or.inr rfl)
          · exact Or.inl hy
      · rcases mem_ite hy with hy | hy
        · rcases List.mem_cons.mp hy with rfl | hy
          · exact Or.inr (Or.inr rfl)
          · exact Or.inr (Or.inl hy)
        · exact Or.inr (Or.inl hy)
    · exact Or.inr (Or.inl hy)
  set u2 := if ¬ scheme.isEmpty = true then scheme ++ ':' :: u1 else u1 with hu2
  have hm2 : ∀ y ∈ u2, y ∈ scheme ∨ y = ':' ∨ y ∈ u1 := by
    intro y hy
    rw [hu2] at hy
    rcases mem_ite hy with hy | hy
    · rcases List.mem_append.mp hy with hy | hy
      · exact Or.inl hy
      · rcases List.mem_cons.mp hy with rfl | hy
        · exact Or.inr (Or.inl rfl)
        · exact Or.inr (Or.inr hy)
    · exact Or.inr (Or.inr hy)
  have hfin : x ∈ query ∨ x = '?' ∨ x ∈ u2 := by
    rcases mem_ite hx with hy | hy
    · rcases List.mem_append.mp hy with hy | hy
      · exact Or.inr (Or.inr hy)
      · rcases List.mem_cons.mp hy with rfl | hy
        · exact Or.inr (Or.inl rfl)
        · exact Or.inl hy
    · exact Or.inr (Or.inr hy)
  rcases hfin with h | h | h
  · tauto
  · tauto
  · rcases hm2 x h with h | h | h
    · tauto
    · tauto
    · rcases hm1 x h with h | h | h <;> tauto

/-- Characters of `normalize_url`'s collapsed, rejoined path come from the
parsed path or are the `'/'` separator. -/
theorem strJoinCollapse_mem {path : Str} {x : Char}
    (hx : x ∈ strJoin '/' ((splitOnChar '/' path).foldl collapseStep [])) :
    x = '/' ∨ x ∈ path := by
  rcases strJoin_mem hx with rfl | ⟨p, hp, hxp⟩
  · exact Or.inl rfl
  · rcases collapse_mem hp with hp2 | hp2
    · exact absurd hp2 (List.not_mem_nil p)
    · exact Or.inr (splitOnChar_mem hp2 x hxp)

/-- `normalize_url` passes an empty fragment to `urlunparse`, and no other
component of a parse can contribute a `'#'`, so the normalized URL string
never contains `'#'`. -/
theorem normalize_no_hash {u v : Str} (h : normalize_url u = .ok v) :
    ('#' : Char) ∉ v := by
  unfold normalize_url at h
  rcases hp : urlparse u [] with e | pr <;> rw [hp] at h <;>
    simp only [bind, Except.bind, Except.instMonad] at h
  · exact absurd h (by simp)
  · simp only [pure, Except.pure, Except.ok.injEq] at h
    obtain ⟨hsch, hnet, _, _, hph, _, hparh, _, hqh⟩ := urlparse_post hp
    intro hmem
    rw [← h] at hmem
    unfold urlunparse at hmem
    dsimp only at hmem
    rcases urlunsplit_mem_nofrag _ hmem with hm | hm | hm | hm | hm | hm | hm
    · have hall := (hsch (List.ne_nil_of_mem hm)).2.2.1
      have := List.all_eq_true.mp hall _ hm
      exact absurd this (by decide)
    · exact hnet _ hm (Or.inr (Or.inr rfl))
    · rcases mem_ite hm with hm2 | hm2
      · rcases List.mem_append.mp hm2 with hm3 | hm3
        · rcases strJoinCollapse_mem hm3 with he | he
          · exact absurd he (by decide)
          · exact hph he
        · rcases List.mem_cons.mp hm3 with he | he
          · exact absurd he (by decide)
          · exact hparh he
      · rcases strJoinCollapse_mem hm2 with he | he
        · exact absurd he (by decide)
        · exact hph he
    · exact hqh hm
    · exact absurd hm (by decide)
    · exact absurd hm (by decide)
    · exact absurd hm (by decide)

/-- `netlocStage` on a string that starts with two slashes. -/
theorem netlocStage_slashes (r : Str) : netlocStage ('/' :: '/' :: r) = splitNetloc r := by
  unfold netlocStage
  rw [if_pos (show List.take 2 ('/' :: '/' :: r) = ['/', '/'] from rfl)]
  rw [show List.drop 2 ('/' :: '/' :: r) = r from rfl]

/-- Re-parsing the URL that `urlunsplit` assembles from well-formed
components recovers exactly those components: the scheme is a nonempty
lowercase run of scheme characters, the netloc is nonempty, free of
delimiters and passed the bracket checks, the path neither starts with a
slash nor contains a delimiter, and nothing contains `'#'` or an unsafe
byte. -/
theorem urlsplit_roundtrip {s n J q : Str}
    (hs : s ≠ []) (hasc : charIsAscii (s.headD ' ') = true)
    (halpha : (s.headD ' ').isAlpha = true)
    (hsall : s.all isSchemeChar = true) (hlow : strLower s = s)
    (hn : n ≠ [])
    (hnmem : ∀ x ∈ n, ¬ (x = '/' ∨ x = '?' ∨ x = '#'))
    (hbr1 : ¬ ((strContains ['['] n ∧ ¬ strContains [']'] n) ∨
               (strContains [']'] n ∧ ¬ strContains ['['] n)))
    (hbr2 : ¬ (strContains ['['] n ∧ strContains [']'] n ∧
               ¬ bracketedHostOK (bracketedHost n)))
    (hJhead : J.head? ≠ some '/')
    (hJq : ('?' : Char) ∉ J) (hJh : ('#' : Char) ∉ J)
    (hqh : ('#' : Char) ∉ q)
    (hclean : cleanStr (urlunsplit s n J q [])) :
    urlsplit (urlunsplit s n J q []) [] =
      .ok ⟨s, n, (if J.isEmpty then [] else '/' :: J), q, []⟩ := by
  have hnb : n.isEmpty = false := by
    cases n
    · exact absurd rfl hn
    · rfl
  have hsb : s.isEmpty = false := by
    cases s
    · exact absurd rfl hs
    · rfl
  have hnprop : ¬ (List.isEmpty n = true) := fun hc => by
    rw [hnb] at hc
    exact Bool.noConfusion hc
  have hsprop : ¬ (List.isEmpty s = true) := fun hc => by
    rw [hsb] at hc
    exact Bool.noConfusion hc
  -- the assembled URL, in flattened form
  have hv : urlunsplit s n J q [] =
      s ++ ':' :: '/' :: '/' :: (n ++ ((if J.isEmpty then [] else '/' :: J) ++
        (if q.isEmpty then [] else '?' :: q))) := by
    unfold urlunsplit
    dsimp only
    rw [if_neg (show ¬ ¬ (List.isEmpty ([] : Str) = true) from fun hc => hc rfl)]
    rw [if_pos (show ¬ (List.isEmpty n = true) ∨
        (¬ (List.isEmpty s = true) ∧ s ∈ uses_netloc ∧ List.take 2 J ≠ ['/', '/'])
      from Or.inl hnprop)]
    rw [if_pos hsprop]
    have hu2 : (if ¬ J.isEmpty = true ∧ J.take 1 ≠ ['/'] then '/' :: J else J) =
        (if J.isEmpty then [] else '/' :: J) := by
      cases J with
      | nil => simp
      | cons a t =>
        have ha : a ≠ '/' := fun h => hJhead (by rw [List.head?, h])
        rw [if_pos ⟨by simp, by simpa using ha⟩, if_neg (by simp)]
    rw [hu2]
    rcases q with _ | ⟨q0, q'⟩
    · rw [if_neg (show ¬ ¬ (List.isEmpty ([] : Str) = true) from fun hc => hc rfl),
        if_pos (show List.isEmpty ([] : Str) = true from rfl)]
      simp [List.append_assoc]
    · rw [if_pos (show ¬ (List.isEmpty (q0 :: q') = true) by simp),
        if_neg (show ¬ (List.isEmpty (q0 :: q') = true) by simp)]
      simp [List.append_assoc]
  rw [hv] at hclean ⊢
  -- head of the scheme
  obtain ⟨s0, s', rfl⟩ : ∃ s0 s', s = s0 :: s' := by
    cases s with
    | nil => exact absurd rfl hs
    | cons a t => exact ⟨a, t, rfl⟩
  have hs0 : isC0OrSpace s0 = false := by
    have h := isAlpha_iff.mp halpha
    rw [show (s0 :: s').headD ' ' = s0 from rfl] at h
    simp only [isC0OrSpace, decide_eq_false_iff_not]
    omega
  -- the stages of the re-parse
  have h1 : lstripC0 ((s0 :: s') ++ ':' :: '/' :: '/' :: (n ++
      ((if J.isEmpty then [] else '/' :: J) ++ (if q.isEmpty then [] else '?' :: q)))) =
      (s0 :: s') ++ ':' :: '/' :: '/' :: (n ++
      ((if J.isEmpty then [] else '/' :: J) ++ (if q.isEmpty then [] else '?' :: q))) := by
    rw [List.cons_append]
    unfold lstripC0
    exact List.dropWhile_cons_of_neg (by rw [hs0]; exact Bool.noConfusion)
  have h2 : removeUnsafe ((s0 :: s') ++ ':' :: '/' :: '/' :: (n ++
      ((if J.isEmpty then [] else '/' :: J) ++ (if q.isEmpty then [] else '?' :: q)))) =
      (s0 :: s') ++ ':' :: '/' :: '/' :: (n ++
      ((if J.isEmpty then [] else '/' :: J) ++ (if q.isEmpty then [] else '?' :: q))) := by
    unfold removeUnsafe
    rw [List.filter_eq_self]
    intro a ha
    obtain ⟨c1, c2, c3⟩ := hclean a ha
    simp [c1, c2, c3]
  have hscolon : (':' : Char) ∉ s0 :: s' := by
    intro hmem
    have := List.all_eq_true.mp hsall _ hmem
    exact absurd this (by decide)
  have h3 : splitScheme ((s0 :: s') ++ ':' :: '/' :: '/' :: (n ++
      ((if J.isEmpty then [] else '/' :: J) ++ (if q.isEmpty then [] else '?' :: q)))) [] =
      (s0 :: s', '/' :: '/' :: (n ++
      ((if J.isEmpty then [] else '/' :: J) ++ (if q.isEmpty then [] else '?' :: q)))) := by
    unfold splitScheme
    rw [breakAtChar_append hscolon]
    dsimp only
    have ha1 : charIsAscii s0 = true := hasc
    have ha2 : s0.isAlpha = true := halpha
    rw [if_pos (by simp [ha1, ha2, hsall])]
    rw [hlow]
  -- the tail after the netloc
  have htw : ((if J.isEmpty then ([] : Str) else '/' :: J) ++
      (if q.isEmpty then ([] : Str) else '?' :: q)).takeWhile
        (fun c => ¬ (c = '/' ∨ c = '?' ∨ c = '#')) = [] := by
    cases J with
    | nil =>
      cases q with
      | nil => rfl
      | cons q0 q' =>
        rw [if_pos (show List.isEmpty ([] : Str) = true from rfl),
          if_neg (show ¬ (List.isEmpty (q0 :: q') = true) by simp), List.nil_append]
        exact List.takeWhile_cons_of_neg (by simp)
    | cons a t =>
      rw [if_neg (show ¬ (List.isEmpty (a :: t) = true) by simp), List.cons_append]
      exact List.takeWhile_cons_of_neg (by simp)
  have h4 : netlocStage ('/' :: '/' :: (n ++
      ((if J.isEmpty then [] else '/' :: J) ++ (if q.isEmpty then [] else '?' :: q)))) =
      (n, (if J.isEmpty then [] else '/' :: J) ++
        (if q.isEmpty then [] else '?' :: q)) := by
    rw [netlocStage_slashes]
    unfold splitNetloc
    dsimp only
    rw [takeWhile_append_all _ (fun x hx => by
      simp only [decide_eq_true_eq]
      exact hnmem x hx), htw, List.append_nil, List.drop_left]
  have htmem : ∀ x ∈ (if J.isEmpty then ([] : Str) else '/' :: J) ++
      (if q.isEmpty then ([] : Str) else '?' :: q),
      x = '/' ∨ x ∈ J ∨ x = '?' ∨ x ∈ q := by
    intro x hx
    rcases List.mem_append.mp hx with hx | hx
    · rcases mem_ite hx with hx | hx
      · exact absurd hx (List.not_mem_nil x)
      · rcases List.mem_cons.mp hx with rfl | hx
        · exact Or.inl rfl
        · exact Or.inr (Or.inl hx)
    · rcases mem_ite hx with hx | hx
      · exact absurd hx (List.not_mem_nil x)
      · rcases List.mem_cons.mp hx with rfl | hx
        · exact Or.inr (Or.inr (Or.inl rfl))
        · exact Or.inr (Or.inr (Or.inr hx))
  have h5 : fragStage ((if J.isEmpty then ([] : Str) else '/' :: J) ++
      (if q.isEmpty then ([] : Str) else '?' :: q)) =
      ((if J.isEmpty then ([] : Str) else '/' :: J) ++
        (if q.isEmpty then ([] : Str) else '?' :: q), []) := by
    unfold fragStage
    rw [breakAtChar_of_not_mem (fun hmem => by
      rcases htmem _ hmem with he | he | he | he
      · exact absurd he (by decide)
      · exact hJh he
      · exact absurd he (by decide)
      · exact hqh he)]
  have hu2q : ('?' : Char) ∉ (if J.isEmpty then ([] : Str) else '/' :: J) := by
    intro hmem
    rcases mem_ite hmem with hx | hx
    · exact List.not_mem_nil _ hx
    · rcases List.mem_cons.mp hx with he | he
      · exact absurd he (by decide)
      · exact hJq he
  have h6 : queryStage ((if J.isEmpty then ([] : Str) else '/' :: J) ++
      (if q.isEmpty then ([] : Str) else '?' :: q)) =
      ((if J.isEmpty then ([] : Str) else '/' :: J), q) := by
    unfold queryStage
    rcases q with _ | ⟨q0, q'⟩
    · rw [if_pos (show List.isEmpty ([] : Str) = true from rfl), List.append_nil,
        breakAtChar_of_not_mem hu2q]
    · rw [if_neg (show ¬ (List.isEmpty (q0 :: q') = true) by simp),
        breakAtChar_append hu2q]
  -- assemble
  unfold urlsplit
  rw [show removeUnsafe (stripC0 ([] : Str)) = [] from rfl]
  dsimp only
  rw [h1, h2, h3]
  dsimp only
  rw [h4]
  dsimp only
  rw [if_neg hbr1, if_neg hbr2, h5]
  dsimp only
  rw [h6]

/-- `urlunparse` with empty params is `urlunsplit`. -/
theorem urlunparse_no_params (s n p q f : Str) :
    urlunparse ⟨s, n, p, [], q, f⟩ = urlunsplit s n p q f := by
  unfold urlunparse
  dsimp only
  rw [if_neg (show ¬ ¬ (List.isEmpty ([] : Str) = true) from fun hc => hc rfl)]

/-- `normalize_url` is a fixed point on its own output, provided the input
parses with a nonempty scheme and netloc, no `';'` in the parsed path, and
no params. -/
theorem normalize_idem_aux {u : Str} {pr : ParseResult} {v : Str}
    (hpr : urlparse u [] = .ok pr) (hv : normalize_url u = .ok v)
    (hs : pr.scheme ≠ []) (hn : pr.netloc ≠ [])
    (hsemi : (';' : Char) ∉ pr.path) (hparams : pr.params = []) :
    normalize_url v = .ok v := by
  have hvclean := normalize_clean hv
  -- the shape of v
  unfold normalize_url at hv
  rw [hpr] at hv
  simp only [bind, Except.bind, Except.instMonad, pure, Except.pure,
    Except.ok.injEq] at hv
  rw [hparams] at hv
  rw [urlunparse_no_params] at hv
  -- facts about the collapsed segments
  have hgood : ∀ p ∈ (splitOnChar '/' pr.path).foldl collapseStep [], goodSeg p :=
    collapse_good (fun p hp => absurd hp (List.not_mem_nil p))
  have hsepfree : ∀ p ∈ (splitOnChar '/' pr.path).foldl collapseStep [],
      ('/' : Char) ∉ p := by
    intro p hp
    rcases collapse_mem hp with hp2 | hp2
    · exact absurd hp2 (List.not_mem_nil p)
    · exact splitOnChar_not_mem_sep hp2
  obtain ⟨hsch, hnet, hbr1, hbr2, hph, hpq, _, _, hqh⟩ := urlparse_post hpr
  obtain ⟨hasc, halpha, hall, hlow⟩ := hsch hs
  have hJhead : (strJoin '/' ((splitOnChar '/' pr.path).foldl collapseStep [])).head?
      ≠ some '/' := by
    rcases hnp : (splitOnChar '/' pr.path).foldl collapseStep [] with _ | ⟨p, ps⟩
    · intro hc
      exact Option.noConfusion hc
    · have hp1 : goodSeg p := hgood p (by rw [hnp]; exact List.mem_cons_self p ps)
      have hp2 : ('/' : Char) ∉ p := hsepfree p (by rw [hnp]; exact List.mem_cons_self p ps)
      rw [strJoin_head hp1.1]
      rcases hpc : p with _ | ⟨a, t⟩
      · exact absurd rfl (hpc ▸ hp1.1)
      · intro hc
        simp only [List.head?, Option.some.injEq] at hc
        rw [hpc] at hp2
        refine hp2 ?_
        rw [hc]
        exact List.mem_cons_self '/' t
  have hJq : ('?' : Char) ∉ strJoin '/' ((splitOnChar '/' pr.path).foldl collapseStep []) := by
    intro hmem
    rcases strJoinCollapse_mem hmem with he | he
    · exact absurd he (by decide)
    · exact hpq he
  have hJh : ('#' : Char) ∉ strJoin '/' ((splitOnChar '/' pr.path).foldl collapseStep []) := by
    intro hmem
    rcases strJoinCollapse_mem hmem with he | he
    · exact absurd he (by decide)
    · exact hph he
  have hJsemi : (';' : Char) ∉ strJoin '/' ((splitOnChar '/' pr.path).foldl collapseStep []) := by
    intro hmem
    rcases strJoinCollapse_mem hmem with he | he
    · exact absurd he (by decide)
    · exact hsemi he
  have hclean2 : cleanStr (urlunsplit pr.scheme pr.netloc
      (strJoin '/' ((splitOnChar '/' pr.path).foldl collapseStep []))
      pr.query []) := by
    rw [hv]
    exact hvclean
  have hr := urlsplit_roundtrip hs hasc halpha hall hlow hn hnet hbr1 hbr2
    hJhead hJq hJh hqh hclean2
  -- the re-parse of v
  have hsemi2 : (';' : Char) ∉ (if (strJoin '/'
      ((splitOnChar '/' pr.path).foldl collapseStep [])).isEmpty then []
      else '/' :: strJoin '/' ((splitOnChar '/' pr.path).foldl collapseStep [])) := by
    intro hmem
    rcases mem_ite hmem with hx | hx
    · exact List.not_mem_nil _ hx
    · rcases List.mem_cons.mp hx with he | he
      · exact absurd he (by decide)
      · exact hJsemi he
  have hscfalse : strContains [';'] (if (strJoin '/'
      ((splitOnChar '/' pr.path).foldl collapseStep [])).isEmpty then []
      else '/' :: strJoin '/' ((splitOnChar '/' pr.path).foldl collapseStep [])) = false := by
    rcases hb : strContains [';'] _ with _ | _
    · rfl
    · exact absurd (strContains_single.mp hb) hsemi2
  have hparse : urlparse v [] = .ok ⟨pr.scheme, pr.netloc,
      (if (strJoin '/' ((splitOnChar '/' pr.path).foldl collapseStep [])).isEmpty then []
        else '/' :: strJoin '/' ((splitOnChar '/' pr.path).foldl collapseStep [])),
      [], pr.query, []⟩ := by
    unfold urlparse
    rw [← hv, hr]
    simp only [bind, Except.bind, Except.instMonad]
    rw [if_neg (show ¬ (_ ∈ uses_params ∧ strContains [';'] _ = true) from fun hc => by
      rw [hscfalse] at hc
      exact Bool.noConfusion hc.2)]
    rfl
  -- the second collapse returns the same segments
  have hnp2 : (splitOnChar '/'
      (if (strJoin '/' ((splitOnChar '/' pr.path).foldl collapseStep [])).isEmpty then []
        else '/' :: strJoin '/' ((splitOnChar '/' pr.path).foldl collapseStep []))).foldl
      collapseStep [] = (splitOnChar '/' pr.path).foldl collapseStep [] := by
    rcases hnp : (splitOnChar '/' pr.path).foldl collapseStep [] with _ | ⟨p, ps⟩
    · rfl
    · have hne : strJoin '/' (p :: ps) ≠ [] := by
        have hp1 : goodSeg p := hgood p (by rw [hnp]; exact List.mem_cons_self p ps)
        intro hc
        have := @strJoin_head '/' p ps hp1.1
        rw [hc] at this
        rcases hpc : p with _ | ⟨a, t⟩
        · exact absurd rfl (hpc ▸ hp1.1)
        · rw [hpc] at this
          exact Option.noConfusion this
      have hb : (strJoin '/' (p :: ps)).isEmpty = false := by
        rcases hj : strJoin '/' (p :: ps) with _ | _
        · exact absurd hj hne
        · rfl
      rw [if_neg (show ¬ ((strJoin '/' (p :: ps)).isEmpty = true) from fun hc => by
        rw [hb] at hc
        exact Bool.noConfusion hc)]
      have hsplit : splitOnChar '/' ('/' :: strJoin '/' (p :: ps)) =
          [] :: (p :: ps) := by
        have h1 : splitOnChar '/' ('/' :: strJoin '/' (p :: ps)) =
            [] :: splitOnChar '/' (strJoin '/' (p :: ps)) := by
          simp [splitOnChar]
        rw [h1, splitOnChar_strJoin (by simp)
          (fun r hr => hsepfree r (by rw [hnp]; exact hr))]
      rw [hsplit]
      rw [show List.foldl collapseStep [] ([] :: p :: ps) =
        List.foldl collapseStep (collapseStep [] []) (p :: ps) from rfl]
      rw [show collapseStep [] [] = [] from rfl]
      rw [collapse_fixed (fun r hr => hgood r (by rw [hnp]; exact hr))]
      rfl
  -- assemble the second normalization
  unfold normalize_url
  rw [hparse]
  simp only [bind, Except.bind, Except.instMonad, pure, Except.pure,
    Except.ok.injEq]
  rw [hnp2, urlunparse_no_params, hv]

/-- Claim C6, counterexample: `normalize_url` is not idempotent.  For
`"./A:b"` one pass yields `"A:b"`, whose re-parse sees a scheme and
lowercases it to `"a:b"`; for `"http://h/..;x/y/.."` one pass yields
`"http://h/..;x"`, whose re-parse splits `";x"` off as params, exposing
the `".."` segment to a second collapse that yields `"http://h/;x"`. -/
theorem C6_counterexample :
    normalize_url (lit "./A:b") = .ok (lit "A:b") ∧
    normalize_url (lit "A:b") = .ok (lit "a:b") ∧
    (lit "a:b" : Str) ≠ lit "A:b" ∧
    normalize_url (lit "http://h/..;x/y/..") = .ok (lit "http://h/..;x") ∧
    normalize_url (lit "http://h/..;x") = .ok (lit "http://h/;x") ∧
    (lit "http://h/;x" : Str) ≠ lit "http://h/..;x" := by
  refine ⟨by decide, by decide, by decide, by decide, by decide, by decide⟩

/-- Claim C6 (amended): normalizing an already-normalized URL is a fixed
point whenever the original URL parses with a nonempty scheme, a nonempty
netloc, no `';'` in the parsed path and no params — the conditions under
which re-parsing cannot reinterpret the collapsed path; and, for every URL,
the normalized form contains no `'#'` at all, so its fragment is empty. -/
theorem C6_amended_thm :
    (∀ (u : Str) (pr : ParseResult) (v : Str),
      urlparse u [] = .ok pr → normalize_url u = .ok v →
      pr.scheme ≠ [] → pr.netloc ≠ [] → (';' : Char) ∉ pr.path →
      pr.params = [] → normalize_url v = .ok v) ∧
    (∀ u v : Str, normalize_url u = .ok v → ('#' : Char) ∉ v) :=
  ⟨fun _ _ _ hpr hv hs hn hsemi hparams =>
      normalize_idem_aux hpr hv hs hn hsemi hparams,
    fun _ _ h => normalize_no_hash h⟩

/-- Claim C6, witness for the amended theorem: a URL with `"."` and `".."`
segments normalizes to `http://h/a/c`, which is a fixed point of the
normalizer and contains no `'#'`. -/
theorem C6_amended_witness :
    normalize_url (lit "http://h/a/c") = .ok (lit "http://h/a/c") ∧
    ('#' : Char) ∉ (lit "http://h/a/c" : Str) :=
  ⟨C6_amended_thm.1 (lit "http://h/a/./b/../c")
      ⟨lit "http", lit "h", lit "/a/./b/../c", [], [], []⟩ (lit "http://h/a/c")
      (by decide) (by decide) (by decide) (by decide) (by decide) (by decide),
    C6_amended_thm.2 (lit "http://h/a/./b/../c") (lit "http://h/a/c") (by decide)⟩

/-! ## Claim C5: termination of the discovery loop -/

/-- A site whose root page carries a link with a mismatched bracket in its
netloc; `urljoin` raises `ValueError("Invalid IPv6 URL")` on it. -/
def c5site : Str → Fetch :=
  lookupSite
    [(lit "http://h/x", .page 200 [lit "http://[a"] (lit "text/html") (lit "T1") [])]

/-- The scope configuration for root `http://h/x` over `c5site`. -/
def c5cfg : Cfg := ⟨c5site, lit "http://h/x", 5, 20⟩

/-- Executable well-formedness of a crawl universe: `QU` lists every URL
that can ever sit on the queue, `VU` their canonical forms, and `K` an
exclusive bound on the number of anchors of any fetched page.  Every queue
URL canonicalizes without an exception into `VU`, and every anchor of a
fetched page resolves without an exception, any enqueued child landing
back in `QU`. -/
def siteOKb (cfg : Cfg) (QU VU : List Str) (K : Nat) : Bool :=
  QU.all (fun u =>
    match uwfOf u with
    | .error _ => false
    | .ok w =>
      decide (w ∈ VU) &&
      (match cfg.site w with
       | .exc => true
       | .page _ hrefs _ _ _ =>
         decide (hrefs.length < K) &&
         hrefs.all (fun href =>
           match processChild cfg.pat w href with
           | .error _ => false
           | .ok none => true
           | .ok (some v) => decide (v ∈ QU))))

/-- Every target on the queue draws its URL and breadcrumb from `QU`. -/
def queueWithin (QU : List Str) (s : St) : Prop :=
  ∀ t ∈ s.queue, t.url ∈ QU ∧ ∀ b ∈ t.breadcrumb, b ∈ QU

/-- The canonical URLs of `VU` not yet visited. -/
def unvisited (VU : List Str) (s : St) : Nat :=
  (VU.dedup.filter (fun x => decide (x ∉ s.visited))).length

/-- The termination measure of the discovery loop: visiting is worth `K`
queue slots. -/
def discMeasure (VU : List Str) (K : Nat) (s : St) : Nat :=
  K * unvisited VU s + s.queue.length

/-- Unpacking of `siteOKb`. -/
theorem siteOKb_spec {cfg : Cfg} {QU VU : List Str} {K : Nat}
    (h : siteOKb cfg QU VU K = true) :
    ∀ u ∈ QU, ∃ w, uwfOf u = .ok w ∧ w ∈ VU ∧
      ∀ st hrefs ct ht pt, cfg.site w = .page st hrefs ct ht pt →
        hrefs.length < K ∧
        ∀ href ∈ hrefs, ∃ o, processChild cfg.pat w href = .ok o ∧
          ∀ v, o = some v → v ∈ QU := by
  intro u hu
  have hu2 := List.all_eq_true.mp h u hu
  rcases hw : uwfOf u with e | w
  · rw [hw] at hu2
    exact Bool.noConfusion hu2
  · rw [hw] at hu2
    dsimp only at hu2
    refine ⟨w, rfl, ?_, ?_⟩
    · rcases hsite : cfg.site w with _ | ⟨st, hrefs, ct, ht, pt⟩ <;>
        rw [hsite] at hu2 <;> simp only [Bool.and_eq_true, decide_eq_true_eq] at hu2
      · exact hu2.1
      · exact hu2.1
    · intro st hrefs ct ht pt hsite
      rw [hsite] at hu2
      simp only [Bool.and_eq_true, decide_eq_true_eq] at hu2
      obtain ⟨_, hlen, hall⟩ := hu2
      refine ⟨hlen, ?_⟩
      intro href hhref
      have h3 := List.all_eq_true.mp hall href hhref
      rcases hpc : processChild cfg.pat w href with e | o
      · rw [hpc] at h3
        exact Bool.noConfusion h3
      · rcases o with _ | v
        · exact ⟨none, rfl, fun v hv => Option.noConfusion hv⟩
        · rw [hpc] at h3
          simp only [decide_eq_true_eq] at h3
          refine ⟨some v, rfl, ?_⟩
          intro v2 hv2
          have hvv : v = v2 := by injection hv2
          rw [← hvv]
          exact h3

/-- The anchor fold of `computeNewLinks` succeeds when every single anchor
resolves. -/
theorem computeNewLinks_ok {pat uwf : Str} {bc : List Str} {depth : Int} :
    ∀ {hrefs : List Str} {acc : List Target},
      (∀ href ∈ hrefs, ∃ o, processChild pat uwf href = .ok o) →
      ∃ nl, hrefs.foldlM (fun acc href => do
          match ← processChild pat uwf href with
          | some v => pure (acc ++ [⟨v, bc ++ [v], depth + 1⟩])
          | none => pure acc) acc = Except.ok nl := by
  intro hrefs
  induction hrefs with
  | nil => intro acc _; exact ⟨acc, rfl⟩
  | cons h hs ih =>
    intro acc hH
    obtain ⟨o, ho⟩ := hH h (List.mem_cons_self h hs)
    rw [List.foldlM_cons]
    rcases o with _ | v
    · simp only [ho, bind, Except.bind, Except.instMonad, pure, Except.pure]
      exact ih (fun r hr => hH r (List.mem_cons_of_mem h hr))
    · simp only [ho, bind, Except.bind, Except.instMonad, pure, Except.pure]
      exact ih (fun r hr => hH r (List.mem_cons_of_mem h hr))

/-- Visiting an unvisited canonical URL removes exactly one element from
the unvisited part of a duplicate-free universe. -/
theorem filter_not_mem_succ :
    ∀ {l : List Str} (vis : List Str) (w : Str), l.Nodup → w ∈ l → w ∉ vis →
      (l.filter (fun x => decide (x ∉ vis ++ [w]))).length + 1 =
        (l.filter (fun x => decide (x ∉ vis))).length := by
  intro l
  induction l with
  | nil => intro vis w _ hw _; exact absurd hw (List.not_mem_nil w)
  | cons a l ih =>
    intro vis w hnd hw hnv
    rcases List.mem_cons.mp hw with hwa | hwl
    · subst hwa
      rw [List.filter_cons, List.filter_cons]
      have h1 : (decide (w ∉ vis ++ [w])) = false := by simp
      have h2 : (decide (w ∉ vis)) = true := by simpa using hnv
      rw [h1, h2]
      have h3 : l.filter (fun x => decide (x ∉ vis ++ [w])) =
          l.filter (fun x => decide (x ∉ vis)) := by
        refine List.filter_congr ?_
        intro x hx
        have hxa : x ≠ w := fun he => (List.nodup_cons.mp hnd).1 (he ▸ hx)
        refine decide_eq_decide.mpr ?_
        simp [List.mem_append, hxa]
      rw [h3]
      simp
    · have haw : a ≠ w := fun he => (List.nodup_cons.mp hnd).1 (he ▸ hwl)
      rw [List.filter_cons, List.filter_cons]
      have hsame : (decide (a ∉ vis ++ [w])) = (decide (a ∉ vis)) := by
        refine decide_eq_decide.mpr ?_
        simp [List.mem_append, haw]
      rw [hsame]
      rcases hb : decide (a ∉ vis) with _ | _
      · simp only [Bool.false_eq_true, if_false]
        exact ih vis w (List.nodup_cons.mp hnd).2 hwl hnv
      · simp only [if_true, List.length_cons]
        have := ih vis w (List.nodup_cons.mp hnd).2 hwl hnv
        omega

/-- On a well-formed universe, a step from a nonempty queue never raises. -/
theorem step_success {cfg : Cfg} {QU VU : List Str} {K : Nat}
    (hok : siteOKb cfg QU VU K = true) {s : St} (hInv : queueWithin QU s)
    {t : Target} {rest : List Target} (hq : s.queue = t :: rest) :
    ∃ s', step cfg s = .ok (some s') := by
  obtain ⟨w, hw, hwVU, hsiteH⟩ := siteOKb_spec hok t.url
    (hInv t (by rw [hq]; exact List.mem_cons_self t rest)).1
  simp only [step, hq, hw, bind, Except.bind, Except.instMonad]
  by_cases h1 : suffixHit w = true
  · rw [if_pos h1]
    exact ⟨_, rfl⟩
  · rw [if_neg h1]
    by_cases h2 : (!patMatch cfg.pat w || decide (w ∈ s.visited)) = true
    · rw [if_pos h2]
      exact ⟨_, rfl⟩
    · rw [if_neg h2]
      rcases hsite : cfg.site w with _ | ⟨st, hrefs, ct, ht, pt⟩
      · exact ⟨_, rfl⟩
      · dsimp only
        by_cases hd : t.depth < cfg.maxDepth
        · rw [if_pos hd]
          obtain ⟨hlen, hpc⟩ := hsiteH st hrefs ct ht pt hsite
          obtain ⟨nl, hnl⟩ := computeNewLinks_ok
            (fun href hh => (hpc href hh).elim (fun o ho => ⟨o, ho.1⟩))
          have hnl2 : computeNewLinks cfg.pat w t.breadcrumb t.depth hrefs = .ok nl :=
            hnl
          simp only [hnl2, bind, Except.bind, Except.instMonad]
          by_cases hne : (!nl.isEmpty) = true
          · rw [if_pos hne]
            exact ⟨_, rfl⟩
          · rw [if_neg hne]
            by_cases hcb : cfg.maxBacktrack < s.cb + 1
            · rw [if_pos hcb]
              rcases hab : aggressiveBacktrack (s.visited ++ [w]) t.breadcrumb t.depth
                  with _ | tgt
              · exact ⟨_, rfl⟩
              · exact ⟨_, rfl⟩
            · rw [if_neg hcb]
              rcases hnb2 : normalBacktrack t.breadcrumb t.depth with _ | tgt
              · exact ⟨_, rfl⟩
              · exact ⟨_, rfl⟩
        · rw [if_neg hd]
          exact ⟨_, rfl⟩

/-- A step keeps every queue URL and breadcrumb inside the universe. -/
theorem queueWithin_step {cfg : Cfg} {QU VU : List Str} {K : Nat}
    (hok : siteOKb cfg QU VU K = true) {s s' : St}
    (hspec : StepSpec cfg s s') (hInv : queueWithin QU s) :
    queueWithin QU s' := by
  obtain ⟨t, rest, uwf, hq, huwf, hcases⟩ := hspec
  have htQ := hInv t (by rw [hq]; exact List.mem_cons_self t rest)
  have hrest : ∀ t' ∈ rest, t'.url ∈ QU ∧ ∀ b ∈ t'.breadcrumb, b ∈ QU :=
    fun t' ht' => hInv t' (by rw [hq]; exact List.mem_cons_of_mem t ht')
  rcases hcases with ⟨_, rfl⟩ | ⟨hsuf, hpm, hvis, hrest2⟩
  · exact fun t' ht' => hrest t' ht'
  · obtain ⟨w, hw, hwVU, hsiteH⟩ := siteOKb_spec hok t.url htQ.1
    rw [hw] at huwf
    injection huwf with hww
    subst hww
    rcases hrest2 with ⟨hexc, rfl⟩ | ⟨st, hrefs, ct, ht, pt, hsite, hrest3⟩
    · exact fun t' ht' => hrest t' ht'
    · rcases hrest3 with ⟨hd, rfl⟩ | ⟨hd, nl, hnl, hrest4⟩
      · exact fun t' ht' => hrest t' ht'
      · rcases hrest4 with ⟨hnlne, rfl⟩ | ⟨hnlnil, hrest5⟩
        · intro t' ht'
          rcases List.mem_append.mp ht' with h | h
          · exact hrest t' h
          · obtain ⟨⟨href, hhref, hpc⟩, hbc, _⟩ := (computeNewLinks_spec hnl).1 t' h
            obtain ⟨hlen, hH⟩ := hsiteH st hrefs ct ht pt hsite
            obtain ⟨o, ho, hov⟩ := hH href hhref
            rw [ho] at hpc
            injection hpc with hpc2
            have hurlQ : t'.url ∈ QU := hov t'.url hpc2
            refine ⟨hurlQ, ?_⟩
            rw [hbc]
            intro b hb
            rcases List.mem_append.mp hb with hb | hb
            · exact htQ.2 b hb
            · rw [List.mem_singleton.mp hb]
              exact hurlQ
        · rcases hrest5 with ⟨hcb, hrest6⟩ | ⟨hcb, hrest6⟩
          · rcases hrest6 with ⟨tgt, hab, rfl⟩ | ⟨hab, rfl⟩
            · obtain ⟨hpre, hlast, _, _⟩ := aggressiveBacktrack_spec hab
              have hbcQ : ∀ b ∈ tgt.breadcrumb, b ∈ QU :=
                fun b hb => htQ.2 b (hpre.subset hb)
              have hurl : tgt.url ∈ tgt.breadcrumb := List.mem_of_mem_getLast? hlast
              intro t' ht'
              rcases List.mem_cons.mp ht' with rfl | h
              · exact ⟨hbcQ _ hurl, hbcQ⟩
              · exact hrest t' h
            · exact fun t' ht' => hrest t' ht'
          · rcases hrest6 with ⟨tgt, hnb2, rfl⟩ | ⟨hnb2, rfl⟩
            · obtain ⟨hbceq, hlast, _⟩ := normalBacktrack_spec hnb2
              have hbcQ : ∀ b ∈ tgt.breadcrumb, b ∈ QU := by
                rw [hbceq]
                exact fun b hb => htQ.2 b ((List.dropLast_sublist t.breadcrumb).subset hb)
              have hurl : tgt.url ∈ tgt.breadcrumb := List.mem_of_mem_getLast? hlast
              intro t' ht'
              rcases List.mem_cons.mp ht' with rfl | h
              · exact ⟨hbcQ _ hurl, hbcQ⟩
              · exact hrest t' h
            · exact fun t' ht' => hrest t' ht'

/-- Every step strictly decreases the termination measure. -/
theorem mu_step {cfg : Cfg} {QU VU : List Str} {K : Nat} (hK : 1 ≤ K)
    (hok : siteOKb cfg QU VU K = true) {s s' : St}
    (hspec : StepSpec cfg s s') (hInv : queueWithin QU s) :
    discMeasure VU K s' < discMeasure VU K s := by
  obtain ⟨t, rest, uwf, hq, huwf, hcases⟩ := hspec
  have hql : s.queue.length = rest.length + 1 := by
    rw [hq]
    rfl
  rcases hcases with ⟨_, rfl⟩ | ⟨hsuf, hpm, hvis, hrest2⟩
  · unfold discMeasure unvisited
    dsimp only
    omega
  · obtain ⟨w, hw, hwVU, hsiteH⟩ := siteOKb_spec hok t.url
      (hInv t (by rw [hq]; exact List.mem_cons_self t rest)).1
    rw [hw] at huwf
    injection huwf with hww
    subst hww
    have hcount := filter_not_mem_succ s.visited w (List.nodup_dedup VU)
      (List.mem_dedup.mpr hwVU) hvis
    have hmul : K * (VU.dedup.filter (fun x => decide (x ∉ s.visited))).length =
        K * (VU.dedup.filter (fun x => decide (x ∉ s.visited ++ [w]))).length + K := by
      rw [← hcount, Nat.mul_succ]
    rcases hrest2 with ⟨hexc, rfl⟩ | ⟨st, hrefs, ct, ht, pt, hsite, hrest3⟩
    · unfold discMeasure unvisited
      dsimp only [postVisit]
      omega
    · rcases hrest3 with ⟨hd, rfl⟩ | ⟨hd, nl, hnl, hrest4⟩
      · unfold discMeasure unvisited
        dsimp only [postVisit]
        omega
      · have hnl_len : nl.length ≤ hrefs.length := (computeNewLinks_spec hnl).2
        have hlen := (hsiteH st hrefs ct ht pt hsite).1
        rcases hrest4 with ⟨hnlne, rfl⟩ | ⟨hnlnil, hrest5⟩
        · unfold discMeasure unvisited
          dsimp only [postVisit]
          simp only [List.length_append]
          omega
        · rcases hrest5 with ⟨hcb, hrest6⟩ | ⟨hcb, hrest6⟩
          · rcases hrest6 with ⟨tgt, hab, rfl⟩ | ⟨hab, rfl⟩
            · unfold discMeasure unvisited
              dsimp only [postVisit]
              simp only [List.length_cons]
              omega
            · unfold discMeasure unvisited
              dsimp only [postVisit]
              omega
          · rcases hrest6 with ⟨tgt, hnb2, rfl⟩ | ⟨hnb2, rfl⟩
            · unfold discMeasure unvisited
              dsimp only [postVisit]
              simp only [List.length_cons]
              omega
            · unfold discMeasure unvisited
              dsimp only [postVisit]
              omega

/-- With fuel exceeding the measure, the discovery loop reaches the empty
queue and exits normally. -/
theorem runDiscovery_term {cfg : Cfg} {QU VU : List Str} {K : Nat}
    (hK : 1 ≤ K) (hok : siteOKb cfg QU VU K = true) :
    ∀ (fuel : Nat) (s : St), queueWithin QU s → discMeasure VU K s < fuel →
      ∃ sf, runDiscovery cfg fuel s = .ok (some sf) := by
  intro fuel
  induction fuel with
  | zero =>
    intro s _ habs
    omega
  | succ n ih =>
    intro s hInv hmu
    rcases hq : s.queue with _ | ⟨t, rest⟩
    · have hstep : step cfg s = .ok none := by
        unfold step
        rw [hq]
      refine ⟨s, ?_⟩
      unfold runDiscovery
      rw [hstep]
    · obtain ⟨s', hs'⟩ := step_success hok hInv hq
      have hspec := step_spec_of_step hs'
      have hInv' := queueWithin_step hok hspec hInv
      have hdec := mu_step hK hok hspec hInv
      obtain ⟨sf, hsf⟩ := ih s' hInv' (by omega)
      refine ⟨sf, ?_⟩
      unfold runDiscovery
      rw [hs']
      exact hsf

/-- On the `c5site` graph the run aborts with the uncaught `ValueError`
after any number of loop iterations. -/
theorem c5_aborts (k : Nat) :
    runDiscovery c5cfg (k + 1) (initSt (lit "http://h/x"))
        = .error (lit "Invalid IPv6 URL") ∧
    crawl_and_scrape c5site true (lit "http://h/x") 5 20 (k + 1)
        = .error (lit "Invalid IPv6 URL") := by
  have hstep : step c5cfg (initSt (lit "http://h/x"))
      = .error (lit "Invalid IPv6 URL") := by decide
  have hrun : runDiscovery c5cfg (k + 1) (initSt (lit "http://h/x"))
      = .error (lit "Invalid IPv6 URL") := by
    unfold runDiscovery
    rw [hstep]
  refine ⟨hrun, ?_⟩
  unfold crawl_and_scrape
  rw [show mkCfg c5site (lit "http://h/x") 5 20 = .ok c5cfg from by
    unfold mkCfg
    rw [show urlparse (lit "http://h/x") []
        = .ok ⟨lit "http", lit "h", lit "/x", [], [], []⟩ from by decide]
    rfl]
  simp only [bind, Except.bind, Except.instMonad]
  rw [hrun]

/-- Claim C5, counterexample: on a finite one-page site whose root carries
the anchor `http://[a`, the walker's loop never empties its queue: the run
aborts (here shown after 2 and after 9 iterations of fuel — `c5_aborts`
proves it for every amount) with the uncaught
`ValueError("Invalid IPv6 URL")` that `urljoin` raises while processing
the anchor, because the loop's `except` clause only catches
`requests.RequestException`. -/
theorem C5_counterexample :
    runDiscovery c5cfg 2 (initSt (lit "http://h/x"))
        = .error (lit "Invalid IPv6 URL") ∧
    crawl_and_scrape c5site true (lit "http://h/x") 5 20 2
        = .error (lit "Invalid IPv6 URL") ∧
    runDiscovery c5cfg 9 (initSt (lit "http://h/x"))
        = .error (lit "Invalid IPv6 URL") ∧
    crawl_and_scrape c5site true (lit "http://h/x") 5 20 9
        = .error (lit "Invalid IPv6 URL") :=
  ⟨(c5_aborts 1).1, (c5_aborts 1).2, (c5_aborts 8).1, (c5_aborts 8).2⟩

/-- Claim C5 (amended): the discovery loop terminates with an empty queue
on every finite link graph all of whose reachable anchors resolve without
an exception.  Concretely: given a finite universe `QU` of queue URLs
containing the root and closed under child discovery, their canonical
forms `VU`, and a bound `K` on the anchor count of any page, the loop
exits normally within `K * |VU| + 2` iterations, because each iteration
either shortens the queue or moves a never-visited canonical URL into the
monotone visited set, and backtracking re-insertions stay inside `QU`. -/
theorem C5_amended_thm {cfg : Cfg} {root : Str} {QU VU : List Str} {K : Nat}
    (hK : 1 ≤ K) (hroot : root ∈ QU) (hok : siteOKb cfg QU VU K = true)
    {fuel : Nat} (hfuel : K * VU.dedup.length + 1 < fuel) :
    ∃ sf, runDiscovery cfg fuel (initSt root) = .ok (some sf) ∧
      sf.queue = [] := by
  have hInit : queueWithin QU (initSt root) := by
    intro t ht
    simp only [initSt, List.mem_singleton] at ht
    rw [ht]
    refine ⟨hroot, ?_⟩
    intro b hb
    rw [List.mem_singleton.mp hb]
    exact hroot
  have hle : unvisited VU (initSt root) ≤ VU.dedup.length :=
    List.length_filter_le _ VU.dedup
  have hmul : K * unvisited VU (initSt root) ≤ K * VU.dedup.length :=
    Nat.mul_le_mul_left K hle
  have hmu : discMeasure VU K (initSt root) < fuel := by
    unfold discMeasure
    have hq : (initSt root).queue.length = 1 := rfl
    omega
  obtain ⟨sf, hsf⟩ := runDiscovery_term hK hok fuel (initSt root) hInit hmu
  exact ⟨sf, hsf, runDiscovery_final_queue hsf⟩

/-- Claim C5, witness for the amended theorem: the two-page `c1site` crawl
terminates within 6 iterations (universe of two URLs, anchor bound 2). -/
theorem C5_amended_witness :
    ∃ sf, runDiscovery c1cfg 6 (initSt (lit "http://h/x")) = .ok (some sf) ∧
      sf.queue = [] :=
  @C5_amended_thm c1cfg (lit "http://h/x")
    [lit "http://h/x", lit "http://h/x/a"] [lit "http://h/x", lit "http://h/x/a"] 2
    (by decide) (by decide) (by decide) 6 (by decide)

/-! ## Claim C8: the scope test -/

/-- The scope test exactly as the specification words it: the candidate's
normalized fragment-stripped form starts with the scope literal — the
root's `scheme://netloc` base concatenated with the root's path stripped
of trailing slashes — followed by a `'/'` or the end of the string. -/
def specScopeMatch (pat s : Str) : Bool :=
  pat.isPrefixOf s &&
    ((s.drop pat.length).isEmpty || (s.drop pat.length).head? == some '/')

/-- On a string containing no tab, carriage return or newline, the code's
regex test agrees with the spec's wording: the one extra way the pattern
`^literal(/|$)` can match — the unanchored `$` just before a trailing
newline — requires a newline in the string. -/
theorem patMatch_eq_spec {pat s : Str} (h : cleanStr s) :
    patMatch pat s = specScopeMatch pat s := by
  unfold patMatch specScopeMatch
  dsimp only
  have hne : (s.drop pat.length == ['\n']) = false := by
    rw [beq_eq_false_iff_ne]
    intro hr
    have hmem : '\n' ∈ s :=
      List.drop_subset pat.length s (by rw [hr]; exact List.mem_singleton_self _)
    exact (h _ hmem).2.2 rfl
  rw [hne, Bool.or_false]

/-- Claim C8: for every root URL and candidate URL, the walker's scope
test (the regex match of the code) on the candidate's normalized,
fragment-stripped form succeeds iff that form starts with the root's
`scheme://netloc` base concatenated with the root's path stripped of
trailing slashes, followed by `'/'` or the end of the string — the spec's
wording of the test.  The two agree on every normalizer output because
normalization never produces a tab, carriage return or newline. -/
theorem C8_scope_iff {root u : Str} {pr : ParseResult} {uwf : Str}
    (hpr : urlparse root [] = .ok pr) (hu : uwfOf u = .ok uwf) :
    (patMatch (mkPat pr) uwf = true ↔ specScopeMatch (mkPat pr) uwf = true) := by
  rw [patMatch_eq_spec (uwfOf_clean hu)]

/-- Claim C8, witness: the spec's own examples.  For root
`https://docs.example.com/guide`, the candidate
`https://docs.example.com/guide/page1` is in scope, while
`https://docs.example.com/other` and `https://other.com/guide/page1`
are not; the root itself is also in scope (end-of-string case). -/
theorem C8_witness :
    (urlparse (lit "https://docs.example.com/guide") [] =
      .ok ⟨lit "https", lit "docs.example.com", lit "/guide", [], [], []⟩) ∧
    (uwfOf (lit "https://docs.example.com/guide/page1") =
      .ok (lit "https://docs.example.com/guide/page1")) ∧
    (patMatch (mkPat ⟨lit "https", lit "docs.example.com", lit "/guide", [], [], []⟩)
        (lit "https://docs.example.com/guide/page1") = true ↔
      specScopeMatch (mkPat ⟨lit "https", lit "docs.example.com", lit "/guide", [], [], []⟩)
        (lit "https://docs.example.com/guide/page1") = true) ∧
    specScopeMatch (lit "https://docs.example.com/guide")
      (lit "https://docs.example.com/guide/page1") = true ∧
    specScopeMatch (lit "https://docs.example.com/guide")
      (lit "https://docs.example.com/other") = false ∧
    specScopeMatch (lit "https://docs.example.com/guide")
      (lit "https://other.com/guide/page1") = false ∧
    specScopeMatch (lit "https://docs.example.com/guide")
      (lit "https://docs.example.com/guide") = true :=
  ⟨by decide, by decide,
    @C8_scope_iff (lit "https://docs.example.com/guide")
      (lit "https://docs.example.com/guide/page1")
      ⟨lit "https", lit "docs.example.com", lit "/guide", [], [], []⟩
      (lit "https://docs.example.com/guide/page1")
      (by decide) (by decide),
    by decide, by decide, by decide, by decide⟩

end Scraper

